import Mathlib

/-!
Verification of the barrel-optimizer core: the export-graph analyzer
(`src/core/analyzer.ts`) and the import rewriter (`src/core/transformer.ts`).

The analyzer is embedded as a fuel-indexed state-passing function over an
abstract file system (a finite association list from absolute POSIX paths to
parsed export surfaces); the external `es-module-lexer` parse of one file is
abstracted as the stored `ParsedExports` value (`none` models a parse failure).
The transformer is embedded over the SWC import-declaration AST shape, with
the external parser and printer abstracted as function parameters.
-/

namespace Barrel

/-! ## String primitives

Structurally recursive character-list versions of the JS string operations the
source uses (`split`, `startsWith`, `endsWith`, `replace(/\\/g, "/")`), so
concrete runs reduce inside the kernel. -/

/-- Whether `pat` is an initial segment of `l`. -/
def charsStart : List Char → List Char → Bool
  | _, [] => true
  | [], _ :: _ => false
  | c :: cs, d :: ds => c = d && charsStart cs ds

/-- JS `s.startsWith(pat)`. -/
def strStarts (s pat : String) : Bool := charsStart s.data pat.data

/-- JS `s.endsWith(pat)`. -/
def strEnds (s pat : String) : Bool := charsStart s.data.reverse pat.data.reverse

/-- Split on the leftmost non-overlapping occurrences of a nonempty separator;
the fuel (one unit per consumed character) makes the recursion structural. -/
def splitOnAuxC (sep : List Char) : Nat → List Char → List Char → List (List Char)
  | _, [], acc => [acc.reverse]
  | 0, c :: rest, acc => [acc.reverse ++ (c :: rest)]
  | fuel + 1, c :: rest, acc =>
    if charsStart (c :: rest) sep then
      acc.reverse :: splitOnAuxC sep fuel (List.drop (sep.length - 1) rest) []
    else
      splitOnAuxC sep fuel rest (c :: acc)

/-- JS `s.split(sep)` for a nonempty separator (also Lean's `String.splitOn`
on such separators). -/
def strSplitOn (s sep : String) : List String :=
  (splitOnAuxC sep.data (s.data.length + 1) s.data []).map (fun l => ⟨l⟩)

/-- JS `s.replace(/\\/g, "/")`. -/
def strSlashes (s : String) : String :=
  ⟨s.data.map (fun c => if c = '\\' then '/' else c)⟩

/-- Whether `needle` occurs contiguously inside `hay`. -/
def charsContains : List Char → List Char → Bool
  | [], needle => charsStart [] needle
  | c :: t, needle => charsStart (c :: t) needle || charsContains t needle

/-- Case-insensitive substring containment. -/
def strContainsCI (hay needle : String) : Bool :=
  charsContains (hay.data.map Char.toLower) (needle.data.map Char.toLower)

/-! ## POSIX path model (Node `path.normalize` / `path.resolve` / `path.dirname` / `path.join`
specialised to absolute POSIX paths, which is what the analyzer traffics in). -/

/-- Process `.`/`..`/empty segments of an absolute path, as `path.normalize` does. -/
def processSegs (segs : List String) : List String :=
  segs.foldl
    (fun acc seg =>
      if seg = "" ∨ seg = "." then acc
      else if seg = ".." then acc.dropLast
      else acc ++ [seg])
    []

/-- `path.normalize` for absolute POSIX paths. -/
def pathNormalize (p : String) : String :=
  "/" ++ String.intercalate "/" (processSegs (strSplitOn p "/"))

/-- `path.resolve(base, spec)` where `base` is an absolute POSIX path. -/
def pathResolve (base spec : String) : String :=
  if strStarts spec "/" then pathNormalize spec
  else pathNormalize (base ++ "/" ++ spec)

/-- `path.dirname` of an absolute POSIX path (applied to normalized paths only). -/
def pathDirname (p : String) : String :=
  "/" ++ String.intercalate "/" (processSegs (strSplitOn p "/")).dropLast

/-- `path.join` of an absolute POSIX path with a relative file name. -/
def pathJoin (a b : String) : String :=
  pathNormalize (a ++ "/" ++ b)

/-! ## Analyzer data model -/

/-- Result of `parseModuleExports`: a file's export surface. `reExports` pairs a
name list with the quoted source specifier, matching
`export { A, B } from './x'`; `starReExports` lists the sources of
`export * from './x'` statements. -/
structure ParsedExports where
  namedExports : List String
  reExports : List (List String × String)
  starReExports : List String
deriving DecidableEq, Repr

/-- The file system visible to one `analyzeLibrary` call: an association list
from absolute file path to the outcome of reading and lexing that file.
A present key with value `none` is a file whose export surface fails to parse;
an absent key is a file that does not exist. -/
def FS := List (String × Option ParsedExports)

/-- First-match association-list lookup (JS `Map.get` / key search). -/
def lookupKey {α : Type} : List (String × α) → String → Option α
  | [], _ => none
  | (k, v) :: rest, key => if k = key then some v else lookupKey rest key

/-- `fileExists` from the analyzer: the path is a regular file of the model. -/
def fileExists (fs : FS) (p : String) : Bool :=
  (lookupKey fs p).isSome

/-- `parseModuleExports`: read the file and lex its export surface; `none`
models both a failed read and a lexer exception. -/
def parseModuleExports (fs : FS) (p : String) : Option ParsedExports :=
  (lookupKey fs p).bind id

/-- `SUPPORTED_EXTENSIONS` of `analyzer.ts` (order matters). -/
def SUPPORTED_EXTENSIONS : List String := [".js", ".mjs", ".cjs", ".ts", ".tsx", ".jsx"]

/-- `INDEX_FILES` of `analyzer.ts`. -/
def INDEX_FILES : List String := ["index.js", "index.mjs", "index.ts", "index.tsx"]

/-- `resolveModulePath`: relative specifiers only; literal path, then each
extension, then each directory index file. -/
def resolveModulePath (fs : FS) (basePath specifier : String) : Option String :=
  if ¬ strStarts specifier "." then none
  else
    let absolutePath := pathResolve basePath specifier
    if fileExists fs absolutePath then some absolutePath
    else
      match SUPPORTED_EXTENSIONS.find? (fun ext => fileExists fs (absolutePath ++ ext)) with
      | some ext => some (absolutePath ++ ext)
      | none =>
        match INDEX_FILES.find? (fun idx => fileExists fs (pathJoin absolutePath idx)) with
        | some idx => some (pathJoin absolutePath idx)
        | none => none

/-- DFS state: the ImportMap under construction (insertion-ordered association
list), the visited set, and instrumentation: `calls` counts `dfsAnalyze`
invocations that proceeded past the visited check, `entryParses` logs the
targets of the visited-guarded `parseModuleExports` call at the top of
`dfsAnalyze`, and `starParses` logs the targets of the extra
`parseModuleExports` call made for each resolved star re-export. -/
structure AState where
  importMap : List (String × String)
  visited : List String
  calls : Nat
  entryParses : List String
  starParses : List String
deriving DecidableEq, Repr

/-- `if (!ctx.importMap.has(name)) ctx.importMap.set(name, file)` — the guarded
map write used at every insertion site of the analyzer. -/
def insertIfAbsent (m : List (String × String)) (k v : String) : List (String × String) :=
  if (lookupKey m k).isSome then m else m ++ [(k, v)]

/-- Bind every listed name to `file` (guarded, first wins): the shape of the
named-re-export, star-target-direct and direct-export insertion loops. -/
def bindNames (names : List String) (file : String) (m : List (String × String)) :
    List (String × String) :=
  names.foldl (fun acc n => insertIfAbsent acc n file) m

/-- The star-merge loop: `for (const [name] of tempMap) if (!has) set`. -/
def mergeFirstWins (m temp : List (String × String)) : List (String × String) :=
  temp.foldl (fun acc kv => insertIfAbsent acc kv.1 kv.2) m

/-- The `for (const reExport of parsedExports.reExports)` loop of `dfsAnalyze`:
resolve the source, bind every unbound name to it, then recurse into it. -/
def processNamed (rec : String → AState → Option AState) (fs : FS) (dir : String) :
    List (List String × String) → AState → Option AState
  | [], st => some st
  | (names, source) :: rest, st =>
    match resolveModulePath fs dir source with
    | none => processNamed rec fs dir rest st
    | some resolved =>
      let st1 := { st with importMap := bindNames names resolved st.importMap }
      match rec resolved st1 with
      | none => none
      | some st2 => processNamed rec fs dir rest st2

/-- The `for (const starSource of parsedExports.starReExports)` loop of
`dfsAnalyze`: recursively collect into a scratch map sharing the visited set,
merge under first-wins, then parse the star target once more and bind its
still-unbound direct exports to it. -/
def processStars (rec : String → AState → Option AState) (fs : FS) (dir : String) :
    List String → AState → Option AState
  | [], st => some st
  | source :: rest, st =>
    match resolveModulePath fs dir source with
    | none => processStars rec fs dir rest st
    | some resolved =>
      match rec resolved { st with importMap := [] } with
      | none => none
      | some tempSt =>
        let st2 := { tempSt with
          importMap := mergeFirstWins st.importMap tempSt.importMap
          starParses := tempSt.starParses ++ [resolved] }
        let st3 :=
          match parseModuleExports fs resolved with
          | none => st2
          | some pe =>
            { st2 with importMap := bindNames pe.namedExports resolved st2.importMap }
        processStars rec fs dir rest st3

/-- `dfsAnalyze`, with an explicit fuel bounding the recursion depth (the code
relies on the visited set for termination; the termination theorem shows fuel
`|fs| + 1` always suffices). Steps: normalize, visited check, mark visited,
parse, named re-exports, star re-exports, then direct named exports. -/
def dfsAnalyze (fs : FS) : Nat → String → AState → Option AState
  | 0, _, _ => none
  | fuel + 1, filePath, st =>
    let np := pathNormalize filePath
    if np ∈ st.visited then some st
    else
      let st0 := { st with
        visited := st.visited ++ [np]
        calls := st.calls + 1
        entryParses := st.entryParses ++ [np] }
      match parseModuleExports fs np with
      | none => some st0
      | some pe =>
        let dir := pathDirname np
        match processNamed (dfsAnalyze fs fuel) fs dir pe.reExports st0 with
        | none => none
        | some st2 =>
          match processStars (dfsAnalyze fs fuel) fs dir pe.starReExports st2 with
          | none => none
          | some st3 =>
            some { st3 with importMap := bindNames pe.namedExports np st3.importMap }

/-- The analyzer's initial DFS state. -/
def initAState : AState := ⟨[], [], 0, [], []⟩

/-- `analyzeLibrary` from a resolved entry point: run the DFS with fuel that
the termination theorem proves sufficient. -/
def analyzeFromEntry (fs : FS) (entry : String) : Option AState :=
  dfsAnalyze fs (fs.length + 1) entry initAState

/-! ## Path canonicalizer (`absoluteToPackagePath` of `transformer.ts`) -/

/-- The distribution-folder denylist. -/
def distFolders : List String := ["dist", "esm", "cjs", "lib", "build", "es", "umd", "module"]

/-- The source extensions of the regex `\.(js|mjs|cjs|ts|tsx|jsx)$`. The
alternatives are mutually exclusive at the end of a string, so testing them in
any fixed order matches the regex. -/
def EXT_SUFFIXES : List String := [".js", ".mjs", ".cjs", ".ts", ".tsx", ".jsx"]

/-- `lastSegment.replace(/\.(js|mjs|cjs|ts|tsx|jsx)$/, "")`. -/
def stripExtension (s : String) : String :=
  match EXT_SUFFIXES.find? (fun e => strEnds s e) with
  | some e => s.dropRight e.length
  | none => s

/-- `absoluteToPackagePath`: absolute defining-file path under `node_modules`
to package-relative specifier. The split on `"node_modules/"` locates the last
occurrence (`lastIndexOf`), since the pattern cannot overlap itself. -/
def absoluteToPackagePath (absolutePath : String) : String :=
  let normalizedPath := strSlashes absolutePath
  let parts := strSplitOn normalizedPath "node_modules/"
  if parts.length ≤ 1 then normalizedPath
  else
    let afterNodeModules := parts.getLastD ""
    let segments := strSplitOn afterNodeModules "/"
    let split :=
      match segments with
      | [] => ("", [])
      | first :: rest =>
        if first ≠ "" ∧ strStarts first "@" then
          (first ++ "/" ++ rest.headD "", rest.drop 1)
        else (first, rest)
    let packageName := split.1
    let sub0 := split.2
    let sub1 :=
      match sub0 with
      | seg0 :: restSegs => if seg0 ≠ "" ∧ seg0 ∈ distFolders then restSegs else sub0
      | [] => sub0
    let sub2 :=
      if sub1 = [] then sub1
      else
        let lastSegment := sub1.getLastD ""
        let nameWithoutExt := stripExtension lastSegment
        let p1 := sub1.dropLast ++ [nameWithoutExt]
        let p2 := if nameWithoutExt = "index" then p1.dropLast else p1
        if 2 ≤ p2.length ∧ p2.getLastD "" = p2.dropLast.getLastD "" then p2.dropLast else p2
    if sub2 = [] then packageName
    else packageName ++ "/" ++ String.intercalate "/" sub2

/-- Modelled from the spec: the §4.4 canonicalization pipeline on the sub-path
segments — strip a leading denylisted distribution directory, strip the
trailing source extension, drop a trailing `index` segment, collapse a
trailing `Dir/Dir` duplicate-name pair. Stated independently of the source
function, for comparison with it. -/
def specCanonicalSub (sub : List String) : List String :=
  let s1 :=
    match sub with
    | d :: rest => if d ∈ distFolders then rest else sub
    | [] => []
  let s2 :=
    match s1.reverse with
    | [] => []
    | lastSeg :: revInit => (stripExtension lastSeg :: revInit).reverse
  let s3 :=
    match s2.reverse with
    | lastSeg :: revInit => if lastSeg = "index" then revInit.reverse else s2
    | [] => s2
  match s3.reverse with
  | a :: b :: revInit => if a = b then (b :: revInit).reverse else s3
  | _ => s3

/-- Modelled from the spec: split the path after the dependency-root boundary
into a package name (one segment, two when the first starts with `@`) and the
remaining sub-path segments. -/
def specPackageSplit (afterSegs : List String) : String × List String :=
  match afterSegs with
  | [] => ("", [])
  | first :: rest =>
    if strStarts first "@" then (first ++ "/" ++ rest.headD "", rest.drop 1)
    else (first, rest)

/-- Modelled from the spec: the whole §4.4 contract on the part of the path
after the dependency-root boundary. -/
def specCanonicalize (afterNodeModules : String) : String :=
  let split := specPackageSplit (strSplitOn afterNodeModules "/")
  match specCanonicalSub split.2 with
  | [] => split.1
  | segs => split.1 ++ "/" ++ String.intercalate "/" segs

/-! ## Transformer data model (SWC import-declaration AST shape) -/

/-- An SWC `StringLiteral` (the import source): cooked value plus raw text. -/
structure StrLit where
  value : String
  raw : String
deriving DecidableEq, Repr

/-- An SWC import specifier: `ImportSpecifier` (named, possibly aliased and
per-specifier type-only), `ImportDefaultSpecifier`, `ImportNamespaceSpecifier`. -/
inductive ImpSpec where
  | namedSpec (lcl : String) (imported : Option String) (isTypeOnly : Bool)
  | defaultSpec (lcl : String)
  | namespaceSpec (lcl : String)
deriving DecidableEq, Repr

/-- An SWC `ImportDeclaration` (span/ctxt bookkeeping omitted). -/
structure ImportDecl where
  specifiers : List ImpSpec
  source : StrLit
  typeOnly : Bool
deriving DecidableEq, Repr

/-- A module item: an import declaration or any other statement (opaque). -/
inductive ModuleItem where
  | imp (d : ImportDecl)
  | other (n : Nat)
deriving DecidableEq, Repr

/-- An SWC `Module`. -/
structure Module where
  body : List ModuleItem
deriving DecidableEq, Repr

/-- `hasNamespaceSpecifier`. -/
def hasNamespaceSpecifier (node : ImportDecl) : Bool :=
  node.specifiers.any fun s =>
    match s with
    | .namespaceSpec _ => true
    | _ => false

/-- `hasDefaultSpecifier`. -/
def hasDefaultSpecifier (node : ImportDecl) : Bool :=
  node.specifiers.any fun s =>
    match s with
    | .defaultSpec _ => true
    | _ => false

/-- `getNamedSpecifiers`: `(imported, local)` pairs of the named specifiers,
with `imported = spec.imported?.value ?? local`. -/
def getNamedSpecifiers (node : ImportDecl) : List (String × String) :=
  node.specifiers.filterMap fun s =>
    match s with
    | .namedSpec lcl imported _ => some (imported.getD lcl, lcl)
    | _ => none

/-- `createNamedImport`: a fresh single-specifier named import declaration.
The alias is kept only when `imported ≠ local`; both the specifier's
`isTypeOnly` and the declaration's `typeOnly` are set to `false`. -/
def createNamedImport (imported lcl source : String) : ImportDecl :=
  { specifiers := [.namedSpec lcl (if imported ≠ lcl then some imported else none) false]
    source := ⟨source, "\"" ++ source ++ "\""⟩
    typeOnly := false }

/-- `TransformResult` (skipped entries as `(source, reason)`, optimized
entries as `(original, rewrites)`). -/
structure TransformResult where
  code : String
  transformed : Bool
  skipped : List (String × String)
  optimized : List (String × List String)
deriving DecidableEq, Repr

/-- The mutable transform state: the result under construction plus the
messages handed to `logger.warn` / `logger.debug`. -/
structure TState where
  result : TransformResult
  warnings : List String
  debugs : List String
deriving DecidableEq, Repr

/-- `TransformConfig` (the fields the transformation reads). -/
structure TransformConfig where
  importMap : List (String × String)
  targetLibraries : List String

/-- Record a `logger.warn` call. -/
def warnLog (st : TState) (msg : String) : TState :=
  { st with warnings := st.warnings ++ [msg] }

/-- Record a `logger.debug` call. -/
def debugLog (st : TState) (msg : String) : TState :=
  { st with debugs := st.debugs ++ [msg] }

/-- `result.skipped.push({source, reason})`. -/
def pushSkipped (st : TState) (source reason : String) : TState :=
  { st with result := { st.result with skipped := st.result.skipped ++ [(source, reason)] } }

/-- The body of the `for (const { imported, local } of namedSpecifiers)` loop:
resolve the name in the ImportMap; if absent, warn and re-emit a named import
against the original specifier; if present, canonicalize and emit a direct
named import, recording the rewrite. -/
def rewriteNamedStep (config : TransformConfig) (source : String)
    (acc : List ImportDecl × List String × TState) (spec : String × String) :
    List ImportDecl × List String × TState :=
  let imported := spec.1
  let lcl := spec.2
  match lookupKey config.importMap imported with
  | none =>
    let st1 := warnLog acc.2.2 ("Could not resolve '" ++ imported ++ "' from '" ++
      source ++ "'. Keeping original import.")
    (acc.1 ++ [createNamedImport imported lcl source], acc.2.1, st1)
  | some resolvedPath =>
    let importPath := absoluteToPackagePath resolvedPath
    (acc.1 ++ [createNamedImport imported lcl importPath],
      acc.2.1 ++ [imported ++ " → " ++ importPath], acc.2.2)

/-- `transformImportDeclaration`: classify one import statement and either
return the replacement declarations (`some`) or leave it unchanged (`none`),
updating the result state exactly as the source does. -/
def transformImportDeclaration (config : TransformConfig) (node : ImportDecl)
    (st : TState) : Option (List ImportDecl) × TState :=
  let source := node.source.value
  let isBarrelImport := config.targetLibraries.any fun lib => source = lib
  if ¬ isBarrelImport then (none, st)
  else if hasNamespaceSpecifier node then
    let st := warnLog st ("Skipping namespace import: import * as ... from '" ++ source ++
      "'. Namespace imports cannot be optimized for tree-shaking.")
    (none, pushSkipped st source "Namespace import (import * as) detected")
  else if node.specifiers = [] then
    let st := debugLog st ("Skipping side-effect import: import '" ++ source ++ "'")
    (none, pushSkipped st source "Side-effect import (no specifiers)")
  else
    let namedSpecifiers := getNamedSpecifiers node
    if namedSpecifiers = [] then
      (none, debugLog st ("Skipping import with no named specifiers: import from '" ++
        source ++ "'"))
    else
      let defaultImports : List ImportDecl :=
        if hasDefaultSpecifier node then
          match node.specifiers.find? (fun s =>
              match s with
              | .defaultSpec _ => true
              | _ => false) with
          | some d => [⟨[d], node.source, node.typeOnly⟩]
          | none => []
        else []
      let step := namedSpecifiers.foldl (rewriteNamedStep config source)
        (defaultImports, [], st)
      let newImports := step.1
      let optimizedRewrites := step.2.1
      let st2 := step.2.2
      let st3 :=
        if optimizedRewrites ≠ [] then
          { st2 with result := { st2.result with
              optimized := st2.result.optimized ++ [(source, optimizedRewrites)]
              transformed := true } }
        else st2
      (some newImports, st3)

/-- The module-body loop of `transformCode`: build the new body, tracking
whether any declaration was replaced. -/
def transformBody (config : TransformConfig) :
    List ModuleItem → TState → List ModuleItem × Bool × TState
  | [], st => ([], false, st)
  | .imp d :: rest, st =>
    match transformImportDeclaration config d st with
    | (some newDecls, st1) =>
      let tail := transformBody config rest st1
      (newDecls.map .imp ++ tail.1, true, tail.2.2)
    | (none, st1) =>
      let tail := transformBody config rest st1
      (.imp d :: tail.1, tail.2.1, tail.2.2)
  | item :: rest, st =>
    let tail := transformBody config rest st
    (item :: tail.1, tail.2.1, tail.2.2)

/-- The initial transform state for a given source text: the fresh
`TransformResult` of `transformCode` plus empty logs. -/
def initTState (code : String) : TState := ⟨⟨code, false, [], []⟩, [], []⟩

/-- `transformCode`, with the external SWC parser and printer abstracted as
function parameters (`none` models a thrown exception). The second component
records whether the printer was invoked. -/
def transformCode (parser : String → Option Module) (printer : Module → Option String)
    (code : String) (importMap : List (String × String)) (targetLibraries : List String)
    (filename : String) : TState × Bool :=
  let st : TState := initTState code
  let config : TransformConfig := ⟨importMap, targetLibraries⟩
  match parser code with
  | none => (warnLog st ("Failed to parse " ++ filename), false)
  | some ast =>
    let stepped := transformBody config ast.body st
    let newBody := stepped.1
    let hasChanges := stepped.2.1
    let st1 := stepped.2.2
    if ¬ hasChanges then (st1, false)
    else
      match printer ⟨newBody⟩ with
      | some out =>
        ({ st1 with result := { st1.result with code := out, transformed := true } }, true)
      | none =>
        let st2 := warnLog st1 "Failed to print transformed code"
        ({ st2 with result := { st2.result with transformed := false } }, true)

/-! ## Basic properties of the guarded map insertion -/

theorem lookupKey_append_some {α : Type} {m : List (String × α)} {k : String} {v : α}
    (l' : List (String × α)) (h : lookupKey m k = some v) :
    lookupKey (m ++ l') k = some v := by
  induction m with
  | nil => exact absurd h (by simp [lookupKey])
  | cons kv rest ih =>
    obtain ⟨k0, v0⟩ := kv
    by_cases hk : k0 = k
    · subst hk
      simp only [lookupKey, List.cons_append, if_true, eq_self_iff_true] at h ⊢
      exact h
    · simp only [lookupKey, List.cons_append, if_neg hk] at h ⊢
      exact ih h

theorem lookupKey_append_none {α : Type} {m : List (String × α)} {k : String}
    (l' : List (String × α)) (h : lookupKey m k = none) :
    lookupKey (m ++ l') k = lookupKey l' k := by
  induction m with
  | nil => simp
  | cons kv rest ih =>
    obtain ⟨k0, v0⟩ := kv
    by_cases hk : k0 = k
    · simp [lookupKey, hk] at h
    · simp only [lookupKey, if_neg hk] at h
      simpa [lookupKey, hk] using ih h

theorem insertIfAbsent_mono {m : List (String × String)} {k v k' v' : String}
    (h : lookupKey m k = some v) :
    lookupKey (insertIfAbsent m k' v') k = some v := by
  unfold insertIfAbsent
  split
  · exact h
  · exact lookupKey_append_some _ h

theorem insertIfAbsent_isSome_mono {m : List (String × String)} {k k' v' : String}
    (h : (lookupKey m k).isSome) :
    (lookupKey (insertIfAbsent m k' v') k).isSome := by
  obtain ⟨v, hv⟩ := Option.isSome_iff_exists.mp h
  simp [insertIfAbsent_mono hv]

theorem insertIfAbsent_self_isSome (m : List (String × String)) (k v : String) :
    (lookupKey (insertIfAbsent m k v) k).isSome := by
  by_cases h : (lookupKey m k).isSome
  · simp [insertIfAbsent, h]
  · have hn : lookupKey m k = none := Option.not_isSome_iff_eq_none.mp h
    simp [insertIfAbsent, hn, lookupKey_append_none _ hn, lookupKey]

theorem insertIfAbsent_lookup_other {m : List (String × String)} {k k' v' : String}
    (hne : k' ≠ k) :
    lookupKey (insertIfAbsent m k' v') k = lookupKey m k := by
  unfold insertIfAbsent
  split
  · rfl
  · cases hm : lookupKey m k with
    | none => simp [lookupKey_append_none _ hm, lookupKey, hne]
    | some v => simp [lookupKey_append_some _ hm, hm]

theorem insertIfAbsent_lookup_new {m : List (String × String)} {k v : String}
    (h : lookupKey m k = none) :
    lookupKey (insertIfAbsent m k v) k = some v := by
  simp [insertIfAbsent, h, lookupKey_append_none _ h, lookupKey]

theorem bindNames_mono {names : List String} {file : String} {m : List (String × String)}
    {k v : String} (h : lookupKey m k = some v) :
    lookupKey (bindNames names file m) k = some v := by
  induction names generalizing m with
  | nil => simpa [bindNames] using h
  | cons n rest ih =>
    simp only [bindNames, List.foldl_cons] at *
    exact ih (insertIfAbsent_mono h)

theorem bindNames_isSome_mono {names : List String} {file : String}
    {m : List (String × String)} {k : String} (h : (lookupKey m k).isSome) :
    (lookupKey (bindNames names file m) k).isSome := by
  obtain ⟨v, hv⟩ := Option.isSome_iff_exists.mp h
  simp [bindNames_mono hv]

theorem bindNames_binds {names : List String} {file : String} {m : List (String × String)}
    {n : String} (h : n ∈ names) :
    (lookupKey (bindNames names file m) n).isSome := by
  induction names generalizing m with
  | nil => cases h
  | cons a rest ih =>
    simp only [bindNames, List.foldl_cons] at *
    rcases List.mem_cons.mp h with rfl | h'
    · exact bindNames_isSome_mono (insertIfAbsent_self_isSome m n file)
    · exact ih h'

theorem bindNames_lookup_new {names : List String} {file : String}
    {m : List (String × String)} {n : String} (hmem : n ∈ names)
    (h0 : lookupKey m n = none) :
    lookupKey (bindNames names file m) n = some file := by
  induction names generalizing m with
  | nil => cases hmem
  | cons a rest ih =>
    simp only [bindNames, List.foldl_cons] at *
    rcases List.mem_cons.mp hmem with rfl | h'
    · exact bindNames_mono (insertIfAbsent_lookup_new h0)
    · by_cases ha : a = n
      · subst ha
        exact bindNames_mono (insertIfAbsent_lookup_new h0)
      · exact ih h' (by rw [insertIfAbsent_lookup_other ha]; exact h0)

theorem mergeFirstWins_mono {m temp : List (String × String)} {k v : String}
    (h : lookupKey m k = some v) :
    lookupKey (mergeFirstWins m temp) k = some v := by
  induction temp generalizing m with
  | nil => simpa [mergeFirstWins] using h
  | cons kv rest ih =>
    simp only [mergeFirstWins, List.foldl_cons] at *
    exact ih (insertIfAbsent_mono h)

theorem mergeFirstWins_isSome_mono {m temp : List (String × String)} {k : String}
    (h : (lookupKey m k).isSome) :
    (lookupKey (mergeFirstWins m temp) k).isSome := by
  obtain ⟨v, hv⟩ := Option.isSome_iff_exists.mp h
  simp [mergeFirstWins_mono hv]

theorem mergeFirstWins_includes {m temp : List (String × String)} {k : String}
    (h : (lookupKey temp k).isSome) :
    (lookupKey (mergeFirstWins m temp) k).isSome := by
  induction temp generalizing m with
  | nil => simp [lookupKey] at h
  | cons kv rest ih =>
    obtain ⟨k0, v0⟩ := kv
    simp only [mergeFirstWins, List.foldl_cons] at *
    by_cases hk : k0 = k
    · subst hk
      exact mergeFirstWins_isSome_mono (insertIfAbsent_self_isSome m k0 v0)
    · exact ih (by simpa [lookupKey, hk] using h)

/-! ## Monotonicity of the DFS state -/

/-- What one analyzer step only ever does to the state: existing map bindings
are preserved (first-wins), and visited set, parse logs and call count only
grow. -/
def AStep (st st' : AState) : Prop :=
  (∀ k v, lookupKey st.importMap k = some v → lookupKey st'.importMap k = some v) ∧
  st.visited <+: st'.visited ∧
  st.entryParses <+: st'.entryParses ∧
  st.starParses <+: st'.starParses ∧
  st.calls ≤ st'.calls

theorem AStep.refl (st : AState) : AStep st st :=
  ⟨fun _ _ h => h, List.prefix_refl _, List.prefix_refl _, List.prefix_refl _, le_refl _⟩

theorem AStep.trans {a b c : AState} (h1 : AStep a b) (h2 : AStep b c) : AStep a c :=
  ⟨fun k v h => h2.1 k v (h1.1 k v h), h1.2.1.trans h2.2.1,
    h1.2.2.1.trans h2.2.2.1, h1.2.2.2.1.trans h2.2.2.2.1,
    h1.2.2.2.2.trans h2.2.2.2.2⟩

theorem processNamed_astep (fs : FS) (dir : String)
    (rec : String → AState → Option AState)
    (hrec : ∀ p st st', rec p st = some st' → AStep st st') :
    ∀ l st st', processNamed rec fs dir l st = some st' → AStep st st' := by
  intro l
  induction l with
  | nil =>
    intro st st' h
    simp only [processNamed] at h
    cases h
    exact AStep.refl _
  | cons e rest ih =>
    intro st st' h
    obtain ⟨names, source⟩ := e
    simp only [processNamed] at h
    cases hres : resolveModulePath fs dir source with
    | none =>
      simp only [hres] at h
      exact ih _ _ h
    | some r =>
      simp only [hres] at h
      cases hrec1 : rec r { st with importMap := bindNames names r st.importMap } with
      | none =>
        simp only [hrec1] at h
        exact Option.noConfusion h
      | some st2 =>
        simp only [hrec1] at h
        have h1 : AStep st { st with importMap := bindNames names r st.importMap } :=
          ⟨fun k v hv => bindNames_mono hv, List.prefix_refl _, List.prefix_refl _,
            List.prefix_refl _, le_refl _⟩
        exact (h1.trans (hrec _ _ _ hrec1)).trans (ih _ _ h)

theorem processStars_astep (fs : FS) (dir : String)
    (rec : String → AState → Option AState)
    (hrec : ∀ p st st', rec p st = some st' → AStep st st') :
    ∀ l st st', processStars rec fs dir l st = some st' → AStep st st' := by
  intro l
  induction l with
  | nil =>
    intro st st' h
    simp only [processStars] at h
    cases h
    exact AStep.refl _
  | cons source rest ih =>
    intro st st' h
    simp only [processStars] at h
    cases hres : resolveModulePath fs dir source with
    | none =>
      simp only [hres] at h
      exact ih _ _ h
    | some r =>
      simp only [hres] at h
      cases hrec1 : rec r { st with importMap := [] } with
      | none =>
        simp only [hrec1] at h
        exact Option.noConfusion h
      | some tempSt =>
        simp only [hrec1] at h
        have htemp := hrec _ _ _ hrec1
        cases hp : parseModuleExports fs r with
        | none =>
          simp only [hp] at h
          refine AStep.trans ?_ (ih _ _ h)
          exact ⟨fun k v hv => mergeFirstWins_mono hv, htemp.2.1, htemp.2.2.1,
            htemp.2.2.2.1.trans (List.prefix_append _ _), htemp.2.2.2.2⟩
        | some pe =>
          simp only [hp] at h
          refine AStep.trans ?_ (ih _ _ h)
          exact ⟨fun k v hv => bindNames_mono (mergeFirstWins_mono hv), htemp.2.1,
            htemp.2.2.1, htemp.2.2.2.1.trans (List.prefix_append _ _), htemp.2.2.2.2⟩

theorem dfsAnalyze_astep (fs : FS) :
    ∀ fuel p st st', dfsAnalyze fs fuel p st = some st' → AStep st st' := by
  intro fuel
  induction fuel with
  | zero => intro p st st' h; exact Option.noConfusion h
  | succ n ih =>
    intro p st st' h
    simp only [dfsAnalyze] at h
    by_cases hvis : pathNormalize p ∈ st.visited
    · rw [if_pos hvis] at h
      cases h
      exact AStep.refl _
    · rw [if_neg hvis] at h
      have hstep0 : AStep st { st with
          visited := st.visited ++ [pathNormalize p]
          calls := st.calls + 1
          entryParses := st.entryParses ++ [pathNormalize p] } :=
        ⟨fun _ _ hv => hv, List.prefix_append _ _, List.prefix_append _ _,
          List.prefix_refl _, Nat.le_succ _⟩
      cases hp : parseModuleExports fs (pathNormalize p) with
      | none =>
        simp only [hp] at h
        cases h
        exact hstep0
      | some pe =>
        simp only [hp] at h
        cases h2 : processNamed (dfsAnalyze fs n) fs (pathDirname (pathNormalize p))
            pe.reExports { st with
              visited := st.visited ++ [pathNormalize p]
              calls := st.calls + 1
              entryParses := st.entryParses ++ [pathNormalize p] } with
        | none =>
          simp only [h2] at h
          exact Option.noConfusion h
        | some st2 =>
          simp only [h2] at h
          cases h3 : processStars (dfsAnalyze fs n) fs (pathDirname (pathNormalize p))
              pe.starReExports st2 with
          | none =>
            simp only [h3] at h
            exact Option.noConfusion h
          | some st3 =>
            simp only [h3] at h
            cases h
            refine hstep0.trans ?_
            refine ((processNamed_astep fs _ _ ih _ _ _ h2).trans
              (processStars_astep fs _ _ ih _ _ _ h3)).trans ?_
            exact ⟨fun k v hv => bindNames_mono hv, List.prefix_refl _,
              List.prefix_refl _, List.prefix_refl _, le_refl _⟩

theorem AStep.isSome_mono {s s' : AState} {k : String} (h : AStep s s')
    (hk : (lookupKey s.importMap k).isSome) : (lookupKey s'.importMap k).isSome := by
  obtain ⟨v, hv⟩ := Option.isSome_iff_exists.mp hk
  simp [h.1 k v hv]

/-- The state reached by `dfsAnalyze` right after marking a fresh file visited. -/
def markVisited (st : AState) (np : String) : AState :=
  { st with
    visited := st.visited ++ [np]
    calls := st.calls + 1
    entryParses := st.entryParses ++ [np] }

/-- Inversion principle for one successful `dfsAnalyze` step. -/
theorem dfsAnalyze_succ_inv {fs : FS} {n : Nat} {p : String} {st st' : AState}
    (h : dfsAnalyze fs (n + 1) p st = some st') :
    (pathNormalize p ∈ st.visited ∧ st' = st) ∨
    (pathNormalize p ∉ st.visited ∧
      ((parseModuleExports fs (pathNormalize p) = none ∧
          st' = markVisited st (pathNormalize p)) ∨
        ∃ pe st2 st3,
          parseModuleExports fs (pathNormalize p) = some pe ∧
          processNamed (dfsAnalyze fs n) fs (pathDirname (pathNormalize p)) pe.reExports
            (markVisited st (pathNormalize p)) = some st2 ∧
          processStars (dfsAnalyze fs n) fs (pathDirname (pathNormalize p)) pe.starReExports
            st2 = some st3 ∧
          st' = { st3 with
            importMap := bindNames pe.namedExports (pathNormalize p) st3.importMap })) := by
  simp only [dfsAnalyze] at h
  by_cases hvis : pathNormalize p ∈ st.visited
  · rw [if_pos hvis] at h
    cases h
    exact Or.inl ⟨hvis, rfl⟩
  · rw [if_neg hvis] at h
    refine Or.inr ⟨hvis, ?_⟩
    cases hp : parseModuleExports fs (pathNormalize p) with
    | none =>
      simp only [hp] at h
      cases h
      exact Or.inl ⟨rfl, rfl⟩
    | some pe =>
      simp only [hp] at h
      cases h2 : processNamed (dfsAnalyze fs n) fs (pathDirname (pathNormalize p))
          pe.reExports (markVisited st (pathNormalize p)) with
      | none =>
        rw [show ({ st with
            visited := st.visited ++ [pathNormalize p]
            calls := st.calls + 1
            entryParses := st.entryParses ++ [pathNormalize p] } : AState) =
          markVisited st (pathNormalize p) from rfl, h2] at h
        exact Option.noConfusion h
      | some st2 =>
        rw [show ({ st with
            visited := st.visited ++ [pathNormalize p]
            calls := st.calls + 1
            entryParses := st.entryParses ++ [pathNormalize p] } : AState) =
          markVisited st (pathNormalize p) from rfl, h2] at h
        cases h3 : processStars (dfsAnalyze fs n) fs (pathDirname (pathNormalize p))
            pe.starReExports st2 with
        | none =>
          simp only [h3] at h
          exact Option.noConfusion h
        | some st3 =>
          simp only [h3] at h
          cases h
          exact Or.inr ⟨pe, st2, st3, rfl, h2, h3, rfl⟩

theorem markVisited_astep (st : AState) (np : String) : AStep st (markVisited st np) :=
  ⟨fun _ _ hv => hv, List.prefix_append _ _, List.prefix_append _ _,
    List.prefix_refl _, Nat.le_succ _⟩

/-- A successful `dfsAnalyze` call leaves its argument's normalized path in
the visited set. -/
theorem dfsAnalyze_visits (fs : FS) :
    ∀ fuel p st st', dfsAnalyze fs fuel p st = some st' → pathNormalize p ∈ st'.visited := by
  intro fuel p st st' h
  cases fuel with
  | zero => exact Option.noConfusion h
  | succ n =>
    rcases dfsAnalyze_succ_inv h with ⟨hvis, rfl⟩ | ⟨hvis, hrest⟩
    · exact hvis
    · have hmem : pathNormalize p ∈ (markVisited st (pathNormalize p)).visited := by
        simp [markVisited]
      rcases hrest with ⟨_, rfl⟩ | ⟨pe, st2, st3, _, h2, h3, rfl⟩
      · exact hmem
      · have ha2 := processNamed_astep fs _ _ (dfsAnalyze_astep fs n) _ _ _ h2
        have ha3 := processStars_astep fs _ _ (dfsAnalyze_astep fs n) _ _ _ h3
        exact ha3.2.1.subset (ha2.2.1.subset hmem)

/-! ## Termination and the invocation-count bound -/

/-- The existing files. -/
def fsKeys (fs : FS) : Finset String := (fs.map Prod.fst).toFinset

/-- The normalized paths of the existing files. -/
def fsKeysNorm (fs : FS) : Finset String :=
  (fs.map (fun kv => pathNormalize kv.1)).toFinset

theorem lookupKey_isSome_mem {α : Type} {l : List (String × α)} {k : String}
    (h : (lookupKey l k).isSome) : k ∈ l.map Prod.fst := by
  induction l with
  | nil => simp [lookupKey] at h
  | cons kv rest ih =>
    obtain ⟨k0, v0⟩ := kv
    by_cases hk : k0 = k
    · subst hk; simp
    · simp only [lookupKey, if_neg hk] at h
      simp [ih h]

theorem resolveModulePath_mem {fs : FS} {dir s r : String}
    (h : resolveModulePath fs dir s = some r) : r ∈ fs.map Prod.fst := by
  simp only [resolveModulePath] at h
  split at h
  · exact Option.noConfusion h
  · by_cases hex : fileExists fs (pathResolve dir s)
    · rw [if_pos hex] at h
      cases h
      exact lookupKey_isSome_mem (by simpa [fileExists] using hex)
    · rw [if_neg hex] at h
      cases hf1 : SUPPORTED_EXTENSIONS.find?
          (fun ext => fileExists fs (pathResolve dir s ++ ext)) with
      | some ext =>
        simp only [hf1] at h
        cases h
        have := List.find?_some hf1
        exact lookupKey_isSome_mem (by simpa [fileExists] using this)
      | none =>
        simp only [hf1] at h
        cases hf2 : INDEX_FILES.find?
            (fun idx => fileExists fs (pathJoin (pathResolve dir s) idx)) with
        | some idx =>
          simp only [hf2] at h
          cases h
          have := List.find?_some hf2
          exact lookupKey_isSome_mem (by simpa [fileExists] using this)
        | none =>
          simp only [hf2] at h
          exact Option.noConfusion h

theorem parseModuleExports_mem {fs : FS} {q : String} {pe : ParsedExports}
    (h : parseModuleExports fs q = some pe) : q ∈ fs.map Prod.fst := by
  apply lookupKey_isSome_mem (k := q)
  cases hl : lookupKey fs q with
  | none => simp [parseModuleExports, hl] at h
  | some o => simp

theorem visited_sdiff_card_le {U : Finset String} {v v' : List String} (h : v ⊆ v') :
    (U \ v'.toFinset).card ≤ (U \ v.toFinset).card := by
  apply Finset.card_le_card
  apply Finset.sdiff_subset_sdiff (Finset.Subset.refl U)
  intro x hx
  rw [List.mem_toFinset] at hx ⊢
  exact h hx

theorem markVisited_sdiff_card (U : Finset String) (st : AState) {np : String}
    (hU : np ∈ U) (hvis : np ∉ st.visited) :
    (U \ (markVisited st np).visited.toFinset).card + 1 = (U \ st.visited.toFinset).card := by
  have hv : (markVisited st np).visited.toFinset = insert np st.visited.toFinset := by
    ext x
    simp [markVisited, or_comm]
  rw [hv]
  have : U \ insert np st.visited.toFinset = (U \ st.visited.toFinset).erase np := by
    ext x
    simp only [Finset.mem_sdiff, Finset.mem_insert, Finset.mem_erase]
    tauto
  rw [this]
  exact Finset.card_erase_add_one (by simp [Finset.mem_sdiff, hU, hvis,
    List.mem_toFinset])

theorem processNamed_total (fs : FS) (dir : String) (n : Nat)
    (rec : String → AState → Option AState)
    (hrec_total : ∀ q s, (fsKeys fs \ s.visited.toFinset).card < n → (rec q s).isSome)
    (hrec_astep : ∀ q s s', rec q s = some s' → AStep s s') :
    ∀ l st, (fsKeys fs \ st.visited.toFinset).card < n →
      (processNamed rec fs dir l st).isSome := by
  intro l
  induction l with
  | nil => intro st _; simp [processNamed]
  | cons e rest ih =>
    intro st hcard
    obtain ⟨names, source⟩ := e
    simp only [processNamed]
    cases hres : resolveModulePath fs dir source with
    | none =>
      simp only [hres]
      exact ih st hcard
    | some r =>
      simp only [hres]
      have h1 := hrec_total r { st with importMap := bindNames names r st.importMap }
        (by simpa using hcard)
      obtain ⟨st2, h2⟩ := Option.isSome_iff_exists.mp h1
      simp only [h2]
      have hsub := (hrec_astep _ _ _ h2).2.1.subset
      exact ih st2 (lt_of_le_of_lt (visited_sdiff_card_le hsub) hcard)

theorem processStars_total (fs : FS) (dir : String) (n : Nat)
    (rec : String → AState → Option AState)
    (hrec_total : ∀ q s, (fsKeys fs \ s.visited.toFinset).card < n → (rec q s).isSome)
    (hrec_astep : ∀ q s s', rec q s = some s' → AStep s s') :
    ∀ l st, (fsKeys fs \ st.visited.toFinset).card < n →
      (processStars rec fs dir l st).isSome := by
  intro l
  induction l with
  | nil => intro st _; simp [processStars]
  | cons source rest ih =>
    intro st hcard
    simp only [processStars]
    cases hres : resolveModulePath fs dir source with
    | none =>
      simp only [hres]
      exact ih st hcard
    | some r =>
      simp only [hres]
      have h1 := hrec_total r { st with importMap := [] } (by simpa using hcard)
      obtain ⟨tempSt, h2⟩ := Option.isSome_iff_exists.mp h1
      simp only [h2]
      have hsub := (hrec_astep _ _ _ h2).2.1.subset
      have hcard2 : (fsKeys fs \ tempSt.visited.toFinset).card < n :=
        lt_of_le_of_lt (visited_sdiff_card_le hsub) hcard
      cases hp : parseModuleExports fs r with
      | none =>
        simp only [hp]
        exact ih _ (by simpa using hcard2)
      | some pe =>
        simp only [hp]
        exact ih _ (by simpa using hcard2)

/-- Termination: fuel exceeding the number of not-yet-visited existing files
always suffices, because each file is marked visited before any recursion. -/
theorem dfsAnalyze_total (fs : FS) :
    ∀ fuel p st, (fsKeys fs \ st.visited.toFinset).card < fuel →
      (dfsAnalyze fs fuel p st).isSome := by
  intro fuel
  induction fuel with
  | zero => intro p st h; omega
  | succ n ih =>
    intro p st hcard
    simp only [dfsAnalyze]
    by_cases hvis : pathNormalize p ∈ st.visited
    · simp [hvis]
    · rw [if_neg hvis]
      cases hp : parseModuleExports fs (pathNormalize p) with
      | none => simp [hp]
      | some pe =>
        have hmem : pathNormalize p ∈ fsKeys fs := by
          rw [fsKeys, List.mem_toFinset]
          exact parseModuleExports_mem hp
        have hcard0 : (fsKeys fs \ (markVisited st (pathNormalize p)).visited.toFinset).card < n := by
          have := markVisited_sdiff_card (fsKeys fs) st hmem hvis
          omega
        have h2 := processNamed_total fs (pathDirname (pathNormalize p)) n
          (dfsAnalyze fs n) (fun q s => ih q s) (dfsAnalyze_astep fs n)
          pe.reExports (markVisited st (pathNormalize p)) hcard0
        obtain ⟨st2, hst2⟩ := Option.isSome_iff_exists.mp h2
        have hsub2 := (processNamed_astep fs _ _ (dfsAnalyze_astep fs n) _ _ _ hst2).2.1.subset
        have hcard2 : (fsKeys fs \ st2.visited.toFinset).card < n :=
          lt_of_le_of_lt (visited_sdiff_card_le hsub2) hcard0
        have h3 := processStars_total fs (pathDirname (pathNormalize p)) n
          (dfsAnalyze fs n) (fun q s => ih q s) (dfsAnalyze_astep fs n)
          pe.starReExports st2 hcard2
        obtain ⟨st3, hst3⟩ := Option.isSome_iff_exists.mp h3
        rw [show ({ st with
            visited := st.visited ++ [pathNormalize p]
            calls := st.calls + 1
            entryParses := st.entryParses ++ [pathNormalize p] } : AState) =
          markVisited st (pathNormalize p) from rfl]
        simp only [hp, hst2, hst3]
        simp

/-- Invocation-count measure: calls made so far plus distinct normalized
existing files still unvisited. -/
def measureK (fs : FS) (st : AState) : Nat :=
  st.calls + (fsKeysNorm fs \ st.visited.toFinset).card

theorem processNamed_count (fs : FS) (dir : String)
    (rec : String → AState → Option AState)
    (hrec_count : ∀ q s s', rec q s = some s' → q ∈ fs.map Prod.fst →
      measureK fs s' ≤ measureK fs s) :
    ∀ l st st', processNamed rec fs dir l st = some st' →
      measureK fs st' ≤ measureK fs st := by
  intro l
  induction l with
  | nil =>
    intro st st' h
    simp only [processNamed] at h
    cases h
    exact le_refl _
  | cons e rest ih =>
    intro st st' h
    obtain ⟨names, source⟩ := e
    simp only [processNamed] at h
    cases hres : resolveModulePath fs dir source with
    | none =>
      simp only [hres] at h
      exact ih _ _ h
    | some r =>
      simp only [hres] at h
      cases hrec1 : rec r { st with importMap := bindNames names r st.importMap } with
      | none =>
        simp only [hrec1] at h
        exact Option.noConfusion h
      | some st2 =>
        simp only [hrec1] at h
        have hle := hrec_count _ _ _ hrec1 (resolveModulePath_mem hres)
        exact le_trans (ih _ _ h) (le_trans hle (le_refl _))

theorem processStars_count (fs : FS) (dir : String)
    (rec : String → AState → Option AState)
    (hrec_count : ∀ q s s', rec q s = some s' → q ∈ fs.map Prod.fst →
      measureK fs s' ≤ measureK fs s) :
    ∀ l st st', processStars rec fs dir l st = some st' →
      measureK fs st' ≤ measureK fs st := by
  intro l
  induction l with
  | nil =>
    intro st st' h
    simp only [processStars] at h
    cases h
    exact le_refl _
  | cons source rest ih =>
    intro st st' h
    simp only [processStars] at h
    cases hres : resolveModulePath fs dir source with
    | none =>
      simp only [hres] at h
      exact ih _ _ h
    | some r =>
      simp only [hres] at h
      cases hrec1 : rec r { st with importMap := [] } with
      | none =>
        simp only [hrec1] at h
        exact Option.noConfusion h
      | some tempSt =>
        simp only [hrec1] at h
        have hle := hrec_count _ _ _ hrec1 (resolveModulePath_mem hres)
        cases hp : parseModuleExports fs r with
        | none =>
          simp only [hp] at h
          exact le_trans (ih _ _ h) hle
        | some pe =>
          simp only [hp] at h
          exact le_trans (ih _ _ h) hle

/-- Each `dfsAnalyze` invocation on an existing file can only trade one
not-yet-visited file for one counted call: the measure never grows. -/
theorem dfsAnalyze_count (fs : FS) :
    ∀ fuel p st st', dfsAnalyze fs fuel p st = some st' → p ∈ fs.map Prod.fst →
      measureK fs st' ≤ measureK fs st := by
  intro fuel
  induction fuel with
  | zero => intro p st st' h _; exact Option.noConfusion h
  | succ n ih =>
    intro p st st' h hmem
    have hnorm : pathNormalize p ∈ fsKeysNorm fs := by
      rw [fsKeysNorm, List.mem_toFinset]
      obtain ⟨kv, hkv, hfst⟩ := List.mem_map.mp hmem
      exact List.mem_map.mpr ⟨kv, hkv, by rw [hfst]⟩
    rcases dfsAnalyze_succ_inv h with ⟨hvis, rfl⟩ | ⟨hvis, hrest⟩
    · exact le_refl _
    · have hK0 : measureK fs (markVisited st (pathNormalize p)) = measureK fs st := by
        have h1 := markVisited_sdiff_card (fsKeysNorm fs) st hnorm hvis
        simp only [measureK, markVisited] at h1 ⊢
        omega
      rcases hrest with ⟨_, rfl⟩ | ⟨pe, st2, st3, _, h2, h3, rfl⟩
      · exact le_of_eq hK0
      · have hc2 := processNamed_count fs _ _ (fun q s s' hq => ih q s s' hq) _ _ _ h2
        have hc3 := processStars_count fs _ _ (fun q s s' hq => ih q s s' hq) _ _ _ h3
        calc measureK fs { st3 with
                importMap := bindNames pe.namedExports (pathNormalize p) st3.importMap }
            = measureK fs st3 := rfl
          _ ≤ measureK fs (markVisited st (pathNormalize p)) := le_trans hc3 hc2
          _ = measureK fs st := hK0

/-- The visited-guarded parse log stays duplicate-free and inside the visited
set. -/
def ParseLogInv (st : AState) : Prop :=
  st.entryParses.Nodup ∧ ∀ q ∈ st.entryParses, q ∈ st.visited

theorem processNamed_parseLogInv (fs : FS) (dir : String)
    (rec : String → AState → Option AState)
    (hrec : ∀ q s s', rec q s = some s' → ParseLogInv s → ParseLogInv s') :
    ∀ l st st', processNamed rec fs dir l st = some st' → ParseLogInv st →
      ParseLogInv st' := by
  intro l
  induction l with
  | nil =>
    intro st st' h hI
    simp only [processNamed] at h
    cases h
    exact hI
  | cons e rest ih =>
    intro st st' h hI
    obtain ⟨names, source⟩ := e
    simp only [processNamed] at h
    cases hres : resolveModulePath fs dir source with
    | none =>
      simp only [hres] at h
      exact ih _ _ h hI
    | some r =>
      simp only [hres] at h
      cases hrec1 : rec r { st with importMap := bindNames names r st.importMap } with
      | none =>
        simp only [hrec1] at h
        exact Option.noConfusion h
      | some st2 =>
        simp only [hrec1] at h
        exact ih _ _ h (hrec _ _ _ hrec1 hI)

theorem processStars_parseLogInv (fs : FS) (dir : String)
    (rec : String → AState → Option AState)
    (hrec : ∀ q s s', rec q s = some s' → ParseLogInv s → ParseLogInv s') :
    ∀ l st st', processStars rec fs dir l st = some st' → ParseLogInv st →
      ParseLogInv st' := by
  intro l
  induction l with
  | nil =>
    intro st st' h hI
    simp only [processStars] at h
    cases h
    exact hI
  | cons source rest ih =>
    intro st st' h hI
    simp only [processStars] at h
    cases hres : resolveModulePath fs dir source with
    | none =>
      simp only [hres] at h
      exact ih _ _ h hI
    | some r =>
      simp only [hres] at h
      cases hrec1 : rec r { st with importMap := [] } with
      | none =>
        simp only [hrec1] at h
        exact Option.noConfusion h
      | some tempSt =>
        simp only [hrec1] at h
        have hI2 := hrec _ _ _ hrec1 hI
        cases hp : parseModuleExports fs r with
        | none =>
          simp only [hp] at h
          exact ih _ _ h hI2
        | some pe =>
          simp only [hp] at h
          exact ih _ _ h hI2

theorem dfsAnalyze_parseLogInv (fs : FS) :
    ∀ fuel p st st', dfsAnalyze fs fuel p st = some st' → ParseLogInv st →
      ParseLogInv st' := by
  intro fuel
  induction fuel with
  | zero => intro p st st' h _; exact Option.noConfusion h
  | succ n ih =>
    intro p st st' h hI
    rcases dfsAnalyze_succ_inv h with ⟨hvis, rfl⟩ | ⟨hvis, hrest⟩
    · exact hI
    · have hnp : pathNormalize p ∉ st.entryParses := fun hmem => hvis (hI.2 _ hmem)
      have hI0 : ParseLogInv (markVisited st (pathNormalize p)) := by
        constructor
        · simp [markVisited, List.nodup_append, hI.1, hnp]
        · intro q hq
          simp only [markVisited, List.mem_append, List.mem_singleton] at hq ⊢
          rcases hq with hq | hq
          · exact Or.inl (hI.2 _ hq)
          · exact Or.inr hq
      rcases hrest with ⟨_, rfl⟩ | ⟨pe, st2, st3, _, h2, h3, rfl⟩
      · exact hI0
      · have hI2 := processNamed_parseLogInv fs _ _ (fun q s s' hq => ih q s s' hq) _ _ _ h2 hI0
        have hI3 := processStars_parseLogInv fs _ _ (fun q s s' hq => ih q s s' hq) _ _ _ h3 hI2
        exact hI3

/-- After the named-re-export loop, every name of a resolvable named re-export
of the processed list is bound (possibly to an earlier first-wins binding). -/
theorem processNamed_binds (fs : FS) (dir : String)
    (rec : String → AState → Option AState)
    (hrec_astep : ∀ q s s', rec q s = some s' → AStep s s') :
    ∀ l st st', processNamed rec fs dir l st = some st' →
      ∀ names src r n, (names, src) ∈ l → resolveModulePath fs dir src = some r →
        n ∈ names → (lookupKey st'.importMap n).isSome := by
  intro l
  induction l with
  | nil =>
    intro st st' _ names src r n hmem
    cases hmem
  | cons e rest ih =>
    intro st st' h names src r n hmem hres hn
    obtain ⟨names0, source0⟩ := e
    simp only [processNamed] at h
    rcases List.mem_cons.mp hmem with heq | hmem'
    · injection heq with h1 h2
      subst h1
      subst h2
      simp only [hres] at h
      cases hrec1 : rec r { st with importMap := bindNames names r st.importMap } with
      | none =>
        simp only [hrec1] at h
        exact Option.noConfusion h
      | some st2 =>
        simp only [hrec1] at h
        have hb : (lookupKey (bindNames names r st.importMap) n).isSome :=
          bindNames_binds hn
        have hb2 := (hrec_astep _ _ _ hrec1).isSome_mono hb
        exact (processNamed_astep fs dir rec hrec_astep _ _ _ h).isSome_mono hb2
    · cases hres0 : resolveModulePath fs dir source0 with
      | none =>
        simp only [hres0] at h
        exact ih _ _ h names src r n hmem' hres hn
      | some r0 =>
        simp only [hres0] at h
        cases hrec1 : rec r0 { st with importMap := bindNames names0 r0 st.importMap } with
        | none =>
          simp only [hrec1] at h
          exact Option.noConfusion h
        | some st2 =>
          simp only [hrec1] at h
          exact ih _ _ h names src r n hmem' hres hn

/-! ## Completeness: the map contains every reachable export -/

/-- An export name reachable from a file through the re-export graph: declared
directly, listed by a resolvable named re-export, or reachable from a
resolvable star re-export target. -/
inductive ReachableExport (fs : FS) : String → String → Prop where
  | direct {p n : String} {pe : ParsedExports} :
      parseModuleExports fs (pathNormalize p) = some pe →
      n ∈ pe.namedExports → ReachableExport fs p n
  | named {p n src r : String} {pe : ParsedExports} {names : List String} :
      parseModuleExports fs (pathNormalize p) = some pe →
      (names, src) ∈ pe.reExports →
      resolveModulePath fs (pathDirname (pathNormalize p)) src = some r →
      n ∈ names → ReachableExport fs p n
  | star {p n src r : String} {pe : ParsedExports} :
      parseModuleExports fs (pathNormalize p) = some pe →
      src ∈ pe.starReExports →
      resolveModulePath fs (pathDirname (pathNormalize p)) src = some r →
      ReachableExport fs r n → ReachableExport fs p n

/-- The closure facts `dfsAnalyze` establishes for a fully processed file `q`
(a normalized path): every resolvable named re-export name is bound, every
resolvable star target has been visited, and every direct export is bound. -/
def FactsAt (fs : FS) (visited : List String) (m : List (String × String))
    (q : String) : Prop :=
  ∀ pe, parseModuleExports fs q = some pe →
    (∀ names src, (names, src) ∈ pe.reExports →
        ∀ r, resolveModulePath fs (pathDirname q) src = some r →
          ∀ n ∈ names, (lookupKey m n).isSome) ∧
    (∀ src ∈ pe.starReExports,
        ∀ r, resolveModulePath fs (pathDirname q) src = some r →
          pathNormalize r ∈ visited) ∧
    (∀ n ∈ pe.namedExports, (lookupKey m n).isSome)

theorem FactsAt.mono {fs : FS} {v v' : List String} {m m' : List (String × String)}
    {q : String} (hv : v ⊆ v')
    (hm : ∀ k, (lookupKey m k).isSome → (lookupKey m' k).isSome)
    (h : FactsAt fs v m q) : FactsAt fs v' m' q := by
  intro pe hpe
  obtain ⟨h1, h2, h3⟩ := h pe hpe
  refine ⟨?_, ?_, ?_⟩
  · intro names src hmem r hres n hn
    exact hm n (h1 names src hmem r hres n hn)
  · intro src hmem r hres
    exact hv (h2 src hmem r hres)
  · intro n hn
    exact hm n (h3 n hn)

theorem AStep.factsAt_mono {fs : FS} {s s' : AState} {q : String} (hstep : AStep s s')
    (h : FactsAt fs s.visited s.importMap q) : FactsAt fs s'.visited s'.importMap q :=
  h.mono hstep.2.1.subset (fun _ hk => hstep.isSome_mono hk)

/-- Every resolvable star target of the processed list ends up visited. -/
theorem processStars_visits (fs : FS) (dir : String)
    (rec : String → AState → Option AState)
    (hrec_astep : ∀ q s s', rec q s = some s' → AStep s s')
    (hrec_visits : ∀ q s s', rec q s = some s' → pathNormalize q ∈ s'.visited) :
    ∀ l st st', processStars rec fs dir l st = some st' →
      ∀ src r, src ∈ l → resolveModulePath fs dir src = some r →
        pathNormalize r ∈ st'.visited := by
  intro l
  induction l with
  | nil =>
    intro st st' _ src r hmem
    cases hmem
  | cons source rest ih =>
    intro st st' h src r hmem hres
    simp only [processStars] at h
    rcases List.mem_cons.mp hmem with rfl | hmem'
    · simp only [hres] at h
      cases hrec1 : rec r { st with importMap := [] } with
      | none =>
        simp only [hrec1] at h
        exact Option.noConfusion h
      | some tempSt =>
        simp only [hrec1] at h
        have hv : pathNormalize r ∈ tempSt.visited := hrec_visits _ _ _ hrec1
        cases hp : parseModuleExports fs r with
        | none =>
          simp only [hp] at h
          exact (processStars_astep fs dir rec hrec_astep _ _ _ h).2.1.subset hv
        | some pe =>
          simp only [hp] at h
          exact (processStars_astep fs dir rec hrec_astep _ _ _ h).2.1.subset hv
    · cases hres0 : resolveModulePath fs dir source with
      | none =>
        simp only [hres0] at h
        exact ih _ _ h src r hmem' hres
      | some r0 =>
        simp only [hres0] at h
        cases hrec1 : rec r0 { st with importMap := [] } with
        | none =>
          simp only [hrec1] at h
          exact Option.noConfusion h
        | some tempSt =>
          simp only [hrec1] at h
          cases hp : parseModuleExports fs r0 with
          | none =>
            simp only [hp] at h
            exact ih _ _ h src r hmem' hres
          | some pe =>
            simp only [hp] at h
            exact ih _ _ h src r hmem' hres

theorem processNamed_closed (fs : FS) (dir : String)
    (rec : String → AState → Option AState)
    (hrec_astep : ∀ q s s', rec q s = some s' → AStep s s')
    (hrec_closed : ∀ q s s', rec q s = some s' →
      ∀ x, x ∈ s'.visited → x ∉ s.visited → FactsAt fs s'.visited s'.importMap x) :
    ∀ l st st', processNamed rec fs dir l st = some st' →
      ∀ x, x ∈ st'.visited → x ∉ st.visited →
        FactsAt fs st'.visited st'.importMap x := by
  intro l
  induction l with
  | nil =>
    intro st st' h x hx hnx
    simp only [processNamed] at h
    cases h
    exact absurd hx hnx
  | cons e rest ih =>
    intro st st' h x hx hnx
    obtain ⟨names, source⟩ := e
    simp only [processNamed] at h
    cases hres : resolveModulePath fs dir source with
    | none =>
      simp only [hres] at h
      exact ih _ _ h x hx hnx
    | some r =>
      simp only [hres] at h
      cases hrec1 : rec r { st with importMap := bindNames names r st.importMap } with
      | none =>
        simp only [hrec1] at h
        exact Option.noConfusion h
      | some st2 =>
        simp only [hrec1] at h
        by_cases hx2 : x ∈ st2.visited
        · have hfacts := hrec_closed _ _ _ hrec1 x hx2 hnx
          exact (processNamed_astep fs dir rec hrec_astep _ _ _ h).factsAt_mono hfacts
        · exact ih _ _ h x hx hx2

theorem processStars_closed (fs : FS) (dir : String)
    (rec : String → AState → Option AState)
    (hrec_astep : ∀ q s s', rec q s = some s' → AStep s s')
    (hrec_closed : ∀ q s s', rec q s = some s' →
      ∀ x, x ∈ s'.visited → x ∉ s.visited → FactsAt fs s'.visited s'.importMap x) :
    ∀ l st st', processStars rec fs dir l st = some st' →
      ∀ x, x ∈ st'.visited → x ∉ st.visited →
        FactsAt fs st'.visited st'.importMap x := by
  intro l
  induction l with
  | nil =>
    intro st st' h x hx hnx
    simp only [processStars] at h
    cases h
    exact absurd hx hnx
  | cons source rest ih =>
    intro st st' h x hx hnx
    simp only [processStars] at h
    cases hres : resolveModulePath fs dir source with
    | none =>
      simp only [hres] at h
      exact ih _ _ h x hx hnx
    | some r =>
      simp only [hres] at h
      cases hrec1 : rec r { st with importMap := [] } with
      | none =>
        simp only [hrec1] at h
        exact Option.noConfusion h
      | some tempSt =>
        simp only [hrec1] at h
        by_cases hx2 : x ∈ tempSt.visited
        · have hfacts := hrec_closed _ _ _ hrec1 x hx2 hnx
          cases hp : parseModuleExports fs r with
          | none =>
            simp only [hp] at h
            refine (processStars_astep fs dir rec hrec_astep _ _ _ h).factsAt_mono ?_
            exact hfacts.mono (fun a ha => ha)
              (fun k hk => mergeFirstWins_includes hk)
          | some pe =>
            simp only [hp] at h
            refine (processStars_astep fs dir rec hrec_astep _ _ _ h).factsAt_mono ?_
            exact hfacts.mono (fun a ha => ha)
              (fun k hk => bindNames_isSome_mono (mergeFirstWins_includes hk))
        · cases hp : parseModuleExports fs r with
          | none =>
            simp only [hp] at h
            exact ih _ _ h x hx hx2
          | some pe =>
            simp only [hp] at h
            exact ih _ _ h x hx hx2

/-- Every file first visited during a successful `dfsAnalyze` call has its
closure facts established in the final state. -/
theorem dfsAnalyze_closed (fs : FS) :
    ∀ fuel p st st', dfsAnalyze fs fuel p st = some st' →
      ∀ x, x ∈ st'.visited → x ∉ st.visited →
        FactsAt fs st'.visited st'.importMap x := by
  intro fuel
  induction fuel with
  | zero => intro p st st' h; exact Option.noConfusion h
  | succ n ih =>
    intro p st st' h x hx hnx
    rcases dfsAnalyze_succ_inv h with ⟨hvis, rfl⟩ | ⟨hvis, hrest⟩
    · exact absurd hx hnx
    · rcases hrest with ⟨hp, rfl⟩ | ⟨pe, st2, st3, hp, h2, h3, rfl⟩
      · have hxnp : x = pathNormalize p := by
          simp only [markVisited, List.mem_append, List.mem_singleton] at hx
          tauto
        subst hxnp
        intro pe' hpe'
        rw [hp] at hpe'
        exact Option.noConfusion hpe'
      · have hastep2 := processNamed_astep fs _ _ (dfsAnalyze_astep fs n) _ _ _ h2
        have hastep3 := processStars_astep fs _ _ (dfsAnalyze_astep fs n) _ _ _ h3
        have hfinstep : AStep st3 { st3 with
            importMap := bindNames pe.namedExports (pathNormalize p) st3.importMap } :=
          ⟨fun k v hv => bindNames_mono hv, List.prefix_refl _, List.prefix_refl _,
            List.prefix_refl _, le_refl _⟩
        by_cases hxnp : x = pathNormalize p
        · subst hxnp
          intro pe' hpe'
          rw [hp] at hpe'
          injection hpe' with hpe'
          subst hpe'
          refine ⟨?_, ?_, ?_⟩
          · intro names src hmem r hres nm hn
            have hb := processNamed_binds fs _ _ (dfsAnalyze_astep fs n) _ _ _ h2
              names src r nm hmem hres hn
            exact hfinstep.isSome_mono (hastep3.isSome_mono hb)
          · intro src hmem r hres
            exact processStars_visits fs _ _ (dfsAnalyze_astep fs n)
              (dfsAnalyze_visits fs n) _ _ _ h3 src r hmem hres
          · intro nm hn
            exact bindNames_binds hn
        · have hnx0 : x ∉ (markVisited st (pathNormalize p)).visited := by
            simp only [markVisited, List.mem_append, List.mem_singleton]
            intro hcon
            tauto
          by_cases hx2 : x ∈ st2.visited
          · have hfacts := processNamed_closed fs _ _ (dfsAnalyze_astep fs n)
              (fun q s s' hq => ih q s s' hq) _ _ _ h2 x hx2 hnx0
            exact hfinstep.factsAt_mono (hastep3.factsAt_mono hfacts)
          · have hfacts := processStars_closed fs _ _ (dfsAnalyze_astep fs n)
              (fun q s s' hq => ih q s s' hq) _ _ _ h3 x hx hx2
            exact hfinstep.factsAt_mono hfacts

/-- Closure facts for every visited file turn graph reachability into map
membership. -/
theorem factsAt_complete (fs : FS) {visited : List String}
    {m : List (String × String)}
    (hC : ∀ q, q ∈ visited → FactsAt fs visited m q) :
    ∀ p n, ReachableExport fs p n → pathNormalize p ∈ visited →
      (lookupKey m n).isSome := by
  intro p n hr
  induction hr with
  | direct hp hn =>
    intro hvis
    exact (hC _ hvis _ hp).2.2 _ hn
  | named hp hmem hres hn =>
    intro hvis
    exact (hC _ hvis _ hp).1 _ _ hmem _ hres _ hn
  | star hp hmem hres _ ih =>
    intro hvis
    exact ih ((hC _ hvis _ hp).2.1 _ hmem _ hres)

/-! ## Analyzer claim theorems -/

/-- C5: ExportMap insertion is first-wins — once a name is bound to a file, no
later step of the traversal (named re-export binding, star re-export merge, or
direct-export binding) ever rebinds it: every map write in `dfsAnalyze` is
guarded by a membership check, so existing bindings survive any successful
`dfsAnalyze` call unchanged. -/
theorem barrel_C5_first_wins (fs : FS) (fuel : Nat) (p : String) (st st' : AState)
    (k v : String) (h : dfsAnalyze fs fuel p st = some st')
    (hk : lookupKey st.importMap k = some v) :
    lookupKey st'.importMap k = some v :=
  (dfsAnalyze_astep fs fuel p st st' h).1 k v hk

/-- A one-file system used to instantiate the first-wins theorem. -/
def fsC5w : FS := [("/a", some ⟨["X"], [], []⟩)]

/-- A starting state with an existing binding `k ↦ f`. -/
def stC5w : AState := ⟨[("k", "f")], [], 0, [], []⟩

/-- Witness for C5: running the DFS over a file that also exports `X` leaves
the pre-existing binding `k ↦ f` intact. -/
theorem barrel_C5_first_wins_witness :
    (dfsAnalyze fsC5w 2 "/a" stC5w).bind (fun s => lookupKey s.importMap "k") =
      some "f" := by
  cases hd : dfsAnalyze fsC5w 2 "/a" stC5w with
  | none => exact absurd hd (by decide)
  | some s => exact barrel_C5_first_wins fsC5w 2 "/a" stC5w s "k" "f" hd (by decide)

/-- Entry star-re-exports `./a`, and `a` declares `X`: the star branch parses
`/a` once inside the guarded DFS and once more to collect its direct
exports. -/
def fsC3cx : FS :=
  [("/e", some ⟨[], [], ["./a"]⟩),
   ("/a", some ⟨["X"], [], []⟩)]

/-- Counterexample to C3: with a star re-export the export surface of `/a` is
parsed twice in one resolve call (once by the visited-guarded `dfsAnalyze`
entry parse, once by the star branch's extra `parseModuleExports`), refuting
"the parse step runs at most one time per normalized absolute path". -/
theorem barrel_C3_counterexample :
    (analyzeFromEntry fsC3cx "/e").map
      (fun st => (st.entryParses ++ st.starParses).count "/a") = some 2 := by
  decide

/-- C3 amended: the VisitedSet check guarantees that the visited-guarded parse
at the top of `dfsAnalyze` runs at most once per normalized absolute path; the
star-re-export branch however re-parses each resolved star target outside that
guard, so a file's export surface can be parsed more than once overall. -/
theorem barrel_C3_guarded_parse_once (fs : FS) (entry : String) (st' : AState)
    (h : analyzeFromEntry fs entry = some st') :
    st'.entryParses.Nodup :=
  (dfsAnalyze_parseLogInv fs (fs.length + 1) entry initAState st' h
    ⟨List.nodup_nil, by intro q hq; cases hq⟩).1

/-- Witness for the amended C3 on the star-re-export file system. -/
theorem barrel_C3_guarded_parse_once_witness :
    (analyzeFromEntry fsC3cx "/e").all (fun st => st.entryParses.Nodup) = true := by
  cases hd : analyzeFromEntry fsC3cx "/e" with
  | none => exact absurd hd (by decide)
  | some s =>
    have hn := barrel_C3_guarded_parse_once fsC3cx "/e" s hd
    simp [Option.all, hn]

/-- The two-hop chain of the claim: the entry re-exports `X` from `mid`, `mid`
re-exports `X` from `leaf`, and only `leaf` declares `X`. -/
def fsC2cx : FS :=
  [("/p/e.js", some ⟨[], [(["X"], "./m.js")], []⟩),
   ("/p/m.js", some ⟨[], [(["X"], "./l.js")], []⟩),
   ("/p/l.js", some ⟨["X"], [], []⟩)]

/-- Counterexample to C2: in the chain `e → mid → leaf`, the returned map binds
`X` to `/p/m.js` — the intermediate barrel, which does not declare `X` (its
`namedExports` is empty) — not to the declaring file `/p/l.js` the claim
requires. -/
theorem barrel_C2_counterexample :
    (analyzeFromEntry fsC2cx "/p/e.js").bind (fun st => lookupKey st.importMap "X") =
        some "/p/m.js" ∧
      ("/p/m.js" : String) ≠ "/p/l.js" := by
  constructor
  · decide
  · decide

/-- C2 amended: a named re-export binds each still-unbound listed name to the
*immediately resolved* source file — one hop, even when that file is itself a
barrel that merely re-exports the name — and first-wins keeps that binding in
the final map. (Values are declaring files only for direct exports and pure
star-re-export chains.) -/
theorem barrel_C2_named_reexport_one_hop (fs : FS) (n : Nat) (p : String)
    (st st' : AState) (pe : ParsedExports) (names : List String)
    (restRe : List (List String × String)) (src r nm : String)
    (h : dfsAnalyze fs (n + 1) p st = some st')
    (hvis : pathNormalize p ∉ st.visited)
    (hp : parseModuleExports fs (pathNormalize p) = some pe)
    (hre : pe.reExports = (names, src) :: restRe)
    (hres : resolveModulePath fs (pathDirname (pathNormalize p)) src = some r)
    (hn : nm ∈ names)
    (h0 : lookupKey st.importMap nm = none) :
    lookupKey st'.importMap nm = some r := by
  rcases dfsAnalyze_succ_inv h with ⟨hvis', _⟩ | ⟨_, hrest⟩
  · exact absurd hvis' hvis
  · rcases hrest with ⟨hpn, _⟩ | ⟨pe2, st2, st3, hp2, h2, h3, rfl⟩
    · rw [hp] at hpn
      exact Option.noConfusion hpn
    · rw [hp] at hp2
      injection hp2 with hp2
      subst hp2
      rw [hre] at h2
      simp only [processNamed, hres] at h2
      cases hrec1 : dfsAnalyze fs n r { markVisited st (pathNormalize p) with
          importMap := bindNames names r (markVisited st (pathNormalize p)).importMap } with
      | none =>
        simp only [hrec1] at h2
        exact Option.noConfusion h2
      | some stx =>
        simp only [hrec1] at h2
        have hb1 : lookupKey (bindNames names r
            (markVisited st (pathNormalize p)).importMap) nm = some r :=
          bindNames_lookup_new hn h0
        have hb2 := (dfsAnalyze_astep fs n _ _ _ hrec1).1 nm r hb1
        have hb3 := (processNamed_astep fs _ _ (dfsAnalyze_astep fs n) _ _ _ h2).1 nm r hb2
        have hb4 := (processStars_astep fs _ _ (dfsAnalyze_astep fs n) _ _ _ h3).1 nm r hb3
        exact bindNames_mono hb4

/-- Witness for the amended C2: on the two-hop chain, `X` is bound to the
one-hop target `/p/m.js`. -/
theorem barrel_C2_named_reexport_one_hop_witness :
    (dfsAnalyze fsC2cx 4 "/p/e.js" initAState).bind
      (fun st => lookupKey st.importMap "X") = some "/p/m.js" := by
  cases hd : dfsAnalyze fsC2cx 4 "/p/e.js" initAState with
  | none => exact absurd hd (by decide)
  | some s =>
    exact barrel_C2_named_reexport_one_hop fsC2cx 3 "/p/e.js" initAState s
      ⟨[], [(["X"], "./m.js")], []⟩ ["X"] [] "./m.js" "/p/m.js" "X" hd
      (by decide) (by decide) (by decide) (by decide) (by decide) (by decide)

/-- C6: for every finite module graph — cyclic ones included — the analyzer
terminates with bounded fuel (`dfsAnalyze` marks each normalized path visited
before recursing), the number of invocations that proceed past the visited
check is bounded by the number of files, and the returned ExportMap contains
every export reachable from the entry file. -/
theorem barrel_C6_terminates_bounded_complete (fs : FS) (entry : String)
    (hmem : entry ∈ fs.map Prod.fst) :
    (analyzeFromEntry fs entry).isSome ∧
    ∀ st', analyzeFromEntry fs entry = some st' →
      st'.calls ≤ fs.length ∧
      ∀ n, ReachableExport fs entry n → (lookupKey st'.importMap n).isSome := by
  constructor
  · apply dfsAnalyze_total fs (fs.length + 1) entry initAState
    have h1 : (fsKeys fs \ (initAState.visited.toFinset)).card ≤ fs.length := by
      have h2 : (fsKeys fs).card ≤ fs.length := by
        calc (fsKeys fs).card ≤ (fs.map Prod.fst).length := List.toFinset_card_le _
          _ = fs.length := List.length_map _ _
      calc (fsKeys fs \ initAState.visited.toFinset).card
          ≤ (fsKeys fs).card := Finset.card_le_card (Finset.sdiff_subset)
        _ ≤ fs.length := h2
    omega
  · intro st' h
    constructor
    · have hc := dfsAnalyze_count fs (fs.length + 1) entry initAState st' h hmem
      have hK : measureK fs initAState ≤ fs.length := by
        have h2 : (fsKeysNorm fs).card ≤ fs.length := by
          calc (fsKeysNorm fs).card
              ≤ (fs.map (fun kv => pathNormalize kv.1)).length := List.toFinset_card_le _
            _ = fs.length := List.length_map _ _
        have h3 : (fsKeysNorm fs \ (([] : List String).toFinset)).card ≤
            (fsKeysNorm fs).card := Finset.card_le_card (Finset.sdiff_subset)
        simp only [measureK, initAState]
        omega
      have : st'.calls ≤ measureK fs st' := Nat.le_add_right _ _
      omega
    · intro n hreach
      have hC : ∀ q, q ∈ st'.visited → FactsAt fs st'.visited st'.importMap q := by
        intro q hq
        exact dfsAnalyze_closed fs (fs.length + 1) entry initAState st' h q hq
          (by intro hcon; cases hcon)
      exact factsAt_complete fs hC entry n hreach (dfsAnalyze_visits fs _ _ _ _ h)

/-- The cyclic graph of the claim: the entry star-re-exports `m1`; `m1` and
`m2` star-re-export each other and each declares one name. -/
def fsC6w : FS :=
  [("/e", some ⟨[], [], ["./m1"]⟩),
   ("/m1", some ⟨["A"], [], ["./m2"]⟩),
   ("/m2", some ⟨["B"], [], ["./m1"]⟩)]

/-- Witness for C6 on the mutual cycle `m1 ↔ m2`: the entry file exists and
resolution terminates. -/
theorem barrel_C6_terminates_bounded_complete_witness :
    ("/e" ∈ fsC6w.map Prod.fst) ∧ (analyzeFromEntry fsC6w "/e").isSome :=
  ⟨by decide, (barrel_C6_terminates_bounded_complete fsC6w "/e" (by decide)).1⟩

/-! ## Transformer lemmas -/

/-- The exact-match check `targetLibraries.some(lib => source === lib)`. -/
theorem any_eq_mem (source : String) (targets : List String) :
    (targets.any fun lib => source = lib) = true ↔ source ∈ targets := by
  rw [List.any_eq_true]
  constructor
  · rintro ⟨lib, hmem, heq⟩
    rw [of_decide_eq_true heq]
    exact hmem
  · intro hmem
    exact ⟨source, hmem, by simp⟩

/-- One named-rewrite step never touches the result record, only the warning
log and the accumulators. -/
theorem rewriteNamedStep_result (config : TransformConfig) (source : String)
    (acc : List ImportDecl × List String × TState) (spec : String × String) :
    (rewriteNamedStep config source acc spec).2.2.result = acc.2.2.result := by
  simp only [rewriteNamedStep]
  cases lookupKey config.importMap spec.1 with
  | none => simp [warnLog]
  | some rp => simp

theorem foldl_rewriteNamedStep_result (config : TransformConfig) (source : String) :
    ∀ (named : List (String × String)) (acc : List ImportDecl × List String × TState),
      (named.foldl (rewriteNamedStep config source) acc).2.2.result =
        acc.2.2.result := by
  intro named
  induction named with
  | nil => intro acc; rfl
  | cons spec rest ih =>
    intro acc
    rw [List.foldl_cons, ih (rewriteNamedStep config source acc spec),
      rewriteNamedStep_result]

/-- The transformation of one import declaration never changes `result.code`. -/
theorem transformImportDeclaration_code (config : TransformConfig) (node : ImportDecl)
    (st : TState) :
    (transformImportDeclaration config node st).2.result.code = st.result.code := by
  simp only [transformImportDeclaration]
  repeat' split
  all_goals simp [pushSkipped, warnLog, debugLog, foldl_rewriteNamedStep_result]

/-- The bail-out matrix: in the four cases the source enumerates — specifier
not a target, namespace binding, zero specifiers, no named specifiers — the
statement is left untouched (`none`) and the `transformed` flag unchanged. -/
theorem transformImportDeclaration_bail (config : TransformConfig)
    (node : ImportDecl) (st : TState)
    (h : node.source.value ∉ config.targetLibraries ∨
      hasNamespaceSpecifier node = true ∨ node.specifiers = [] ∨
      getNamedSpecifiers node = []) :
    (transformImportDeclaration config node st).1 = none ∧
    (transformImportDeclaration config node st).2.result.transformed =
      st.result.transformed := by
  simp only [transformImportDeclaration]
  by_cases hb : (config.targetLibraries.any fun lib => node.source.value = lib) = true
  · rw [if_neg (not_not_intro hb)]
    rcases h with hmem | hns | hempty | hnamed
    · exact absurd ((any_eq_mem _ _).mp hb) hmem
    · rw [if_pos hns]
      exact ⟨rfl, by simp [pushSkipped, warnLog]⟩
    · rw [if_neg (by simp [hasNamespaceSpecifier, hempty]), if_pos hempty]
      exact ⟨rfl, by simp [pushSkipped, debugLog]⟩
    · by_cases hns : hasNamespaceSpecifier node = true
      · rw [if_pos hns]
        exact ⟨rfl, by simp [pushSkipped, warnLog]⟩
      · rw [if_neg hns]
        by_cases hempty : node.specifiers = []
        · rw [if_pos hempty]
          exact ⟨rfl, by simp [pushSkipped, debugLog]⟩
        · rw [if_neg hempty, if_pos hnamed]
          exact ⟨rfl, by simp [debugLog]⟩
  · rw [if_pos hb]
    exact ⟨rfl, rfl⟩

/-- The module-body loop never changes `result.code`. -/
theorem transformBody_code (config : TransformConfig) :
    ∀ (items : List ModuleItem) (st : TState),
      (transformBody config items st).2.2.result.code = st.result.code := by
  intro items
  induction items with
  | nil => intro st; rfl
  | cons item rest ih =>
    intro st
    cases item with
    | imp d =>
      simp only [transformBody]
      cases htid : transformImportDeclaration config d st with
      | mk o st1 =>
        have hcode : st1.result.code = st.result.code := by
          have := transformImportDeclaration_code config d st
          rw [htid] at this
          exact this
        cases o with
        | none => simpa using (ih st1).trans hcode
        | some decls => simpa using (ih st1).trans hcode
    | other k =>
      simp only [transformBody]
      exact ih st

/-- When every import declaration of the body falls in a bail-out case, the
loop reports no changes and leaves the `transformed` flag alone. -/
theorem transformBody_no_match (config : TransformConfig) :
    ∀ (items : List ModuleItem) (st : TState),
      (∀ d, ModuleItem.imp d ∈ items →
        d.source.value ∉ config.targetLibraries ∨ hasNamespaceSpecifier d = true ∨
          d.specifiers = [] ∨ getNamedSpecifiers d = []) →
      (transformBody config items st).2.1 = false ∧
      (transformBody config items st).2.2.result.transformed =
        st.result.transformed := by
  intro items
  induction items with
  | nil => intro st _; exact ⟨rfl, rfl⟩
  | cons item rest ih =>
    intro st hall
    cases item with
    | imp d =>
      have hd := hall d (List.mem_cons_self _ _)
      have hbail := transformImportDeclaration_bail config d st hd
      simp only [transformBody]
      cases htid : transformImportDeclaration config d st with
      | mk o st1 =>
        rw [htid] at hbail
        simp only at hbail
        obtain ⟨hnone, htr⟩ := hbail
        subst hnone
        have hrest := ih st1 (fun e he => hall e (List.mem_cons_of_mem _ he))
        exact ⟨by simpa using hrest.1, by simpa using hrest.2.trans htr⟩
    | other k =>
      simp only [transformBody]
      exact ih st (fun e he => hall e (List.mem_cons_of_mem _ he))

/-- An import declaration whose transformation bails out is kept verbatim in
the new body. -/
theorem transformBody_keeps (config : TransformConfig) :
    ∀ (items : List ModuleItem) (st : TState) (d : ImportDecl),
      ModuleItem.imp d ∈ items →
      (∀ s, (transformImportDeclaration config d s).1 = none) →
      ModuleItem.imp d ∈ (transformBody config items st).1 := by
  intro items
  induction items with
  | nil => intro st d hmem; cases hmem
  | cons item rest ih =>
    intro st d hmem hnone
    cases item with
    | imp e =>
      simp only [transformBody]
      rcases List.mem_cons.mp hmem with heq | hmem'
      · injection heq with heq
        subst heq
        cases htid : transformImportDeclaration config d st with
        | mk o st1 =>
          have := hnone st
          rw [htid] at this
          simp only at this
          subst this
          simp
      · cases htid : transformImportDeclaration config e st with
        | mk o st1 =>
          cases o with
          | none => simp [ih st1 d hmem' hnone]
          | some decls => simp [ih st1 d hmem' hnone]
    | other k =>
      simp only [transformBody]
      rcases List.mem_cons.mp hmem with heq | hmem'
      · exact absurd heq (by simp)
      · simp [ih st d hmem' hnone]

/-- Exact state change of the namespace bail-out branch. -/
theorem transformImportDeclaration_namespace (config : TransformConfig)
    (node : ImportDecl) (st : TState)
    (hmem : node.source.value ∈ config.targetLibraries)
    (hns : hasNamespaceSpecifier node = true) :
    transformImportDeclaration config node st =
      (none, pushSkipped
        (warnLog st ("Skipping namespace import: import * as ... from '" ++
          node.source.value ++
          "'. Namespace imports cannot be optimized for tree-shaking."))
        node.source.value "Namespace import (import * as) detected") := by
  simp only [transformImportDeclaration]
  rw [if_neg (not_not_intro ((any_eq_mem _ _).mpr hmem)), if_pos hns]

/-- Exact state change of the side-effect bail-out branch. -/
theorem transformImportDeclaration_sideeffect (config : TransformConfig)
    (node : ImportDecl) (st : TState)
    (hmem : node.source.value ∈ config.targetLibraries)
    (hempty : node.specifiers = []) :
    transformImportDeclaration config node st =
      (none, pushSkipped
        (debugLog st ("Skipping side-effect import: import '" ++
          node.source.value ++ "'"))
        node.source.value "Side-effect import (no specifiers)") := by
  simp only [transformImportDeclaration]
  rw [if_neg (not_not_intro ((any_eq_mem _ _).mpr hmem)),
    if_neg (by simp [hasNamespaceSpecifier, hempty]), if_pos hempty]

/-- C8: an import whose specifier exactly matches a target package and that
carries a namespace binding, or no binding at all, is left unchanged (the
declaration is not replaced and survives verbatim in the new body) and a skip
entry is recorded whose source is the specifier and whose reason identifies
the case; the namespace reason contains the word "namespace" (up to letter
case: the recorded string capitalizes it). -/
theorem barrel_C8_namespace_sideeffect_bailout (config : TransformConfig)
    (node : ImportDecl) (st : TState)
    (hmem : node.source.value ∈ config.targetLibraries) :
    (hasNamespaceSpecifier node = true →
      (transformImportDeclaration config node st).1 = none ∧
      (transformImportDeclaration config node st).2.result.skipped =
        st.result.skipped ++
          [(node.source.value, "Namespace import (import * as) detected")] ∧
      strContainsCI "Namespace import (import * as) detected" "namespace" = true) ∧
    (node.specifiers = [] →
      (transformImportDeclaration config node st).1 = none ∧
      (transformImportDeclaration config node st).2.result.skipped =
        st.result.skipped ++
          [(node.source.value, "Side-effect import (no specifiers)")]) ∧
    ((hasNamespaceSpecifier node = true ∨ node.specifiers = []) →
      ∀ (items : List ModuleItem) (st0 : TState), ModuleItem.imp node ∈ items →
        ModuleItem.imp node ∈ (transformBody config items st0).1) := by
  refine ⟨?_, ?_, ?_⟩
  · intro hns
    rw [transformImportDeclaration_namespace config node st hmem hns]
    exact ⟨rfl, by simp [pushSkipped, warnLog], by decide⟩
  · intro hempty
    rw [transformImportDeclaration_sideeffect config node st hmem hempty]
    exact ⟨rfl, by simp [pushSkipped, debugLog]⟩
  · intro hcase items st0 hmem'
    refine transformBody_keeps config items st0 node hmem' (fun s => ?_)
    exact (transformImportDeclaration_bail config node s
      (by rcases hcase with h | h
          · exact Or.inr (Or.inl h)
          · exact Or.inr (Or.inr (Or.inl h)))).1

/-- A namespace barrel import, as in `import * as Pkg from 'pkg'`. -/
def nodeC8ns : ImportDecl := ⟨[.namespaceSpec "Pkg"], ⟨"pkg", "'pkg'"⟩, false⟩

/-- A side-effect barrel import, as in `import 'pkg'`. -/
def nodeC8se : ImportDecl := ⟨[], ⟨"pkg", "'pkg'"⟩, false⟩

/-- Witness for C8: both bail-out branches at concrete inputs. -/
theorem barrel_C8_namespace_sideeffect_bailout_witness :
    ((transformImportDeclaration ⟨[], ["pkg"]⟩ nodeC8ns (initTState "x")).2.result.skipped =
      [("pkg", "Namespace import (import * as) detected")]) ∧
    ((transformImportDeclaration ⟨[], ["pkg"]⟩ nodeC8se (initTState "x")).2.result.skipped =
      [("pkg", "Side-effect import (no specifiers)")]) := by
  constructor
  · have h := (barrel_C8_namespace_sideeffect_bailout ⟨[], ["pkg"]⟩ nodeC8ns
      (initTState "x") (by decide)).1 (by decide)
    simpa [initTState] using h.2.1
  · have h := ((barrel_C8_namespace_sideeffect_bailout ⟨[], ["pkg"]⟩ nodeC8se
      (initTState "x") (by decide)).2.1) (by decide)
    simpa [initTState] using h.2

/-- C10: when the source parses and every import declaration falls outside the
rewriter's reach — its specifier differs from every target package, or it
bails out as a namespace or side-effect import, or it carries only a default
binding (no named specifiers) — `transformCode` returns the input string
itself, does not invoke the printer, and reports `transformed = false`. -/
theorem barrel_C10_identity_without_reprint
    (parser : String → Option Module) (printer : Module → Option String)
    (code filename : String) (importMap : List (String × String))
    (targets : List String) (ast : Module)
    (hp : parser code = some ast)
    (hall : ∀ d, ModuleItem.imp d ∈ ast.body →
      d.source.value ∉ targets ∨ hasNamespaceSpecifier d = true ∨
        d.specifiers = [] ∨ getNamedSpecifiers d = []) :
    (transformCode parser printer code importMap targets filename).1.result.code = code ∧
    (transformCode parser printer code importMap targets filename).1.result.transformed =
      false ∧
    (transformCode parser printer code importMap targets filename).2 = false := by
  have hno := transformBody_no_match ⟨importMap, targets⟩ ast.body (initTState code) hall
  simp only [transformCode, hp]
  rw [if_pos (by rw [hno.1]; exact Bool.false_ne_true)]
  refine ⟨?_, ?_, rfl⟩
  · exact transformBody_code ⟨importMap, targets⟩ ast.body (initTState code)
  · simpa [initTState] using hno.2

/-- A module with one non-target import, one namespace import, one
side-effect import and one default-only import of the target. -/
def astC10 : Module :=
  ⟨[.imp ⟨[.namedSpec "x" none false], ⟨"other", "'other'"⟩, false⟩,
    .imp nodeC8ns,
    .imp nodeC8se,
    .imp ⟨[.defaultSpec "D"], ⟨"pkg", "'pkg'"⟩, false⟩,
    .other 0]⟩

/-- Witness for C10 at a concrete module covering all four pass-through
cases. -/
theorem barrel_C10_identity_without_reprint_witness :
    (transformCode (fun _ => some astC10) (fun _ => some "PRINTED") "src" []
      ["pkg"] "input.ts").1.result.code = "src" ∧
    (transformCode (fun _ => some astC10) (fun _ => some "PRINTED") "src" []
      ["pkg"] "input.ts").2 = false := by
  have h := barrel_C10_identity_without_reprint (fun _ => some astC10)
    (fun _ => some "PRINTED") "src" "input.ts" [] ["pkg"] astC10 rfl
    (by
      intro d hd
      simp [astC10, nodeC8ns, nodeC8se] at hd
      rcases hd with rfl | rfl | rfl | rfl
      · decide
      · decide
      · decide
      · decide)
  exact ⟨h.1, h.2.2⟩

/-- C7: `transformCode` never propagates a parser or printer exception. A
parse failure yields `transformed = false`, the original text unchanged and a
diagnostic handed to the logger; and when printing fails after the body loop
replaced at least one declaration, the result reverts to `transformed = false`
with the original text returned — partial output is never emitted. -/
theorem barrel_C7_no_throw_no_partial_output
    (parser : String → Option Module) (printer : Module → Option String)
    (code filename : String) (importMap : List (String × String))
    (targets : List String) :
    (parser code = none →
      (transformCode parser printer code importMap targets filename).1.result.code = code ∧
      (transformCode parser printer code importMap targets filename).1.result.transformed =
        false ∧
      (transformCode parser printer code importMap targets filename).1.warnings ≠ []) ∧
    (∀ ast, parser code = some ast →
      (transformBody ⟨importMap, targets⟩ ast.body (initTState code)).2.1 = true →
      printer ⟨(transformBody ⟨importMap, targets⟩ ast.body (initTState code)).1⟩ = none →
      (transformCode parser printer code importMap targets filename).1.result.code = code ∧
      (transformCode parser printer code importMap targets filename).1.result.transformed =
        false) := by
  constructor
  · intro hpn
    simp [transformCode, hpn, warnLog, initTState]
  · intro ast hps hch hpr
    simp only [transformCode, hps]
    rw [if_neg (not_not_intro hch)]
    simp only [hpr]
    refine ⟨?_, ?_⟩
    · have := transformBody_code ⟨importMap, targets⟩ ast.body (initTState code)
      simpa [warnLog, initTState] using this
    · trivial

/-- A single named barrel import used to drive the printer-failure path. -/
def astC7 : Module := ⟨[.imp ⟨[.namedSpec "U" none false], ⟨"pkg", "'pkg'"⟩, false⟩]⟩

/-- Witness for C7: a failing parser, and a failing printer after a real
rewrite, both at concrete inputs. -/
theorem barrel_C7_no_throw_no_partial_output_witness :
    ((transformCode (fun _ => none) (fun _ => some "P") "c" [] ["pkg"]
        "f.ts").1.result.code = "c" ∧
      (transformCode (fun _ => none) (fun _ => some "P") "c" [] ["pkg"]
        "f.ts").1.result.transformed = false ∧
      (transformCode (fun _ => none) (fun _ => some "P") "c" [] ["pkg"]
        "f.ts").1.warnings ≠ []) ∧
    ((transformCode (fun _ => some astC7) (fun _ => none) "c" [] ["pkg"]
        "f.ts").1.result.code = "c" ∧
      (transformCode (fun _ => some astC7) (fun _ => none) "c" [] ["pkg"]
        "f.ts").1.result.transformed = false) :=
  ⟨(barrel_C7_no_throw_no_partial_output (fun _ => none) (fun _ => some "P") "c"
      "f.ts" [] ["pkg"]).1 rfl,
    (barrel_C7_no_throw_no_partial_output (fun _ => some astC7) (fun _ => none) "c"
      "f.ts" [] ["pkg"]).2 astC7 rfl (by decide) rfl⟩

/-- The named-rewrite loop when no name resolves: each binding is re-emitted
against the original specifier, no rewrite is recorded, one warning per name
is logged. -/
theorem foldl_rewriteNamedStep_unresolved (config : TransformConfig) (source : String) :
    ∀ (named : List (String × String)) (acc : List ImportDecl × List String × TState),
      (∀ iv ∈ named, lookupKey config.importMap iv.1 = none) →
      named.foldl (rewriteNamedStep config source) acc =
        (acc.1 ++ named.map (fun iv => createNamedImport iv.1 iv.2 source),
         acc.2.1,
         { acc.2.2 with warnings := acc.2.2.warnings ++ named.map (fun iv =>
             "Could not resolve '" ++ iv.1 ++ "' from '" ++ source ++
               "'. Keeping original import.") }) := by
  intro named
  induction named with
  | nil =>
    intro acc _
    obtain ⟨a, b, c⟩ := acc
    obtain ⟨res, w, dbg⟩ := c
    simp
  | cons iv rest ih =>
    intro acc hall
    rw [List.foldl_cons]
    have hstep : rewriteNamedStep config source acc iv =
        (acc.1 ++ [createNamedImport iv.1 iv.2 source], acc.2.1,
          warnLog acc.2.2 ("Could not resolve '" ++ iv.1 ++ "' from '" ++ source ++
            "'. Keeping original import.")) := by
      simp only [rewriteNamedStep, hall iv (List.mem_cons_self _ _)]
    rw [hstep, ih _ (fun x hx => hall x (List.mem_cons_of_mem _ hx))]
    simp [warnLog]

/-- A named barrel import none of whose names resolve: the statement is
replaced by per-name imports against the original specifier, with a warning
per name and nothing recorded as optimized. -/
theorem transformImportDeclaration_all_unresolved (config : TransformConfig)
    (node : ImportDecl) (st : TState)
    (hmem : node.source.value ∈ config.targetLibraries)
    (hns : hasNamespaceSpecifier node = false)
    (hnd : hasDefaultSpecifier node = false)
    (hne : getNamedSpecifiers node ≠ [])
    (hunres : ∀ iv ∈ getNamedSpecifiers node, lookupKey config.importMap iv.1 = none) :
    transformImportDeclaration config node st =
      (some ((getNamedSpecifiers node).map (fun iv =>
          createNamedImport iv.1 iv.2 node.source.value)),
       { st with warnings := st.warnings ++ (getNamedSpecifiers node).map (fun iv =>
           "Could not resolve '" ++ iv.1 ++ "' from '" ++ node.source.value ++
             "'. Keeping original import.") }) := by
  have hspec : ¬ node.specifiers = [] := by
    intro hcon
    exact hne (by simp [getNamedSpecifiers, hcon])
  simp only [transformImportDeclaration]
  rw [if_neg (not_not_intro ((any_eq_mem _ _).mpr hmem)), if_neg (by simp [hns]),
    if_neg hspec, if_neg hne, if_neg (by simp [hnd]),
    foldl_rewriteNamedStep_unresolved config node.source.value
      (getNamedSpecifiers node) ([], [], st) hunres]
  simp

/-- C1 amended: on a parsed file whose one import statement is a named import
of a target package with every name absent from the ExportMap, the rewriter
re-emits the same named imports bound to the original specifier, records one
warning per name, adds no entry to `optimized` — but `transformCode` returns
`transformed = true`, because the statement was reconstructed (`hasChanges`)
and the print step unconditionally flags a reprinted file as transformed. -/
theorem barrel_C1_unresolved_reemitted_transformed
    (parser : String → Option Module) (printer : Module → Option String)
    (code out filename : String) (importMap : List (String × String))
    (targets : List String) (node : ImportDecl)
    (hp : parser code = some ⟨[.imp node]⟩)
    (hmem : node.source.value ∈ targets)
    (hns : hasNamespaceSpecifier node = false)
    (hnd : hasDefaultSpecifier node = false)
    (hne : getNamedSpecifiers node ≠ [])
    (hunres : ∀ iv ∈ getNamedSpecifiers node, lookupKey importMap iv.1 = none)
    (hpr : printer ⟨((getNamedSpecifiers node).map (fun iv =>
        createNamedImport iv.1 iv.2 node.source.value)).map ModuleItem.imp⟩ =
        some out) :
    (transformCode parser printer code importMap targets filename).1.result.transformed =
      true ∧
    (transformCode parser printer code importMap targets filename).1.result.optimized =
      [] ∧
    (transformCode parser printer code importMap targets filename).1.result.code = out ∧
    (transformCode parser printer code importMap targets filename).1.warnings =
      (getNamedSpecifiers node).map (fun iv =>
        "Could not resolve '" ++ iv.1 ++ "' from '" ++ node.source.value ++
          "'. Keeping original import.") := by
  have htid := transformImportDeclaration_all_unresolved ⟨importMap, targets⟩ node
    (initTState code) hmem hns hnd hne hunres
  simp only [transformCode, hp, transformBody, htid]
  simp only [List.append_nil]
  rw [if_neg (by simp)]
  simp only [hpr]
  simp [initTState]

/-- The one-statement module of spec scenario 6: `import { Unknown } from 'pkg'`. -/
def astC1 : Module := ⟨[.imp ⟨[.namedSpec "Unknown" none false], ⟨"pkg", "'pkg'"⟩, false⟩]⟩

/-- Counterexample to C1: at the claim's own input — `import { Unknown } from
'pkg'` with an empty ExportMap — `transformCode` returns `transformed = true`
(with `optimized` empty), not the `transformed = false` the claim states,
because the reconstructed statement marks the body changed and the successful
print sets the flag. -/
theorem barrel_C1_counterexample :
    (transformCode (fun s => if s = "import { Unknown } from 'pkg'" then some astC1
        else none)
      (fun _ => some "P") "import { Unknown } from 'pkg'" [] ["pkg"]
      "input.ts").1.result.transformed = true ∧
    (transformCode (fun s => if s = "import { Unknown } from 'pkg'" then some astC1
        else none)
      (fun _ => some "P") "import { Unknown } from 'pkg'" [] ["pkg"]
      "input.ts").1.result.optimized = [] := by
  decide

/-- Witness for the amended C1 at the claim's input. -/
theorem barrel_C1_unresolved_reemitted_transformed_witness :
    (transformCode (fun s => if s = "import { Unknown } from 'pkg'" then some astC1
        else none)
      (fun _ => some "Q") "import { Unknown } from 'pkg'" [] ["pkg"]
      "input.ts").1.result.transformed = true ∧
    (transformCode (fun s => if s = "import { Unknown } from 'pkg'" then some astC1
        else none)
      (fun _ => some "Q") "import { Unknown } from 'pkg'" [] ["pkg"]
      "input.ts").1.result.code = "Q" := by
  have h := barrel_C1_unresolved_reemitted_transformed
    (fun s => if s = "import { Unknown } from 'pkg'" then some astC1 else none)
    (fun _ => some "Q") "import { Unknown } from 'pkg'" "Q" "input.ts" [] ["pkg"]
    ⟨[.namedSpec "Unknown" none false], ⟨"pkg", "'pkg'"⟩, false⟩
    (by decide) (by decide) (by decide) (by decide) (by decide)
    (by intro iv hiv; rfl) rfl
  exact ⟨h.1, h.2.2.1⟩

/-- Whether a declaration consists of exactly one default specifier. -/
def isDefaultOnly (d : ImportDecl) : Bool :=
  match d.specifiers with
  | [.defaultSpec _] => true
  | _ => false

theorem foldl_rewriteNamedStep_mem (config : TransformConfig) (source : String) :
    ∀ (named : List (String × String)) (acc : List ImportDecl × List String × TState)
      (d : ImportDecl), d ∈ (named.foldl (rewriteNamedStep config source) acc).1 →
      d ∈ acc.1 ∨ ∃ i lc s', d = createNamedImport i lc s' := by
  intro named
  induction named with
  | nil => intro acc d hd; exact Or.inl hd
  | cons iv rest ih =>
    intro acc d hd
    rw [List.foldl_cons] at hd
    rcases ih _ d hd with hmem | hex
    · revert hmem
      simp only [rewriteNamedStep]
      cases lookupKey config.importMap iv.1 with
      | none =>
        intro hmem
        rcases List.mem_append.mp hmem with h | h
        · exact Or.inl h
        · exact Or.inr ⟨iv.1, iv.2, _, List.mem_singleton.mp h⟩
      | some rp =>
        intro hmem
        rcases List.mem_append.mp hmem with h | h
        · exact Or.inl h
        · exact Or.inr ⟨iv.1, iv.2, _, List.mem_singleton.mp h⟩
    · exact Or.inr hex

/-- C4 amended: every declaration a rewritten statement emits is a
value import (`typeOnly = false`) regardless of the original statement's
type-only-ness — the rewriter does *not* preserve `import type` — except the
split-off default import, which keeps the original statement's `typeOnly`
flag and barrel specifier. -/
theorem barrel_C4_rewritten_imports_value_only (config : TransformConfig)
    (node : ImportDecl) (st : TState) (decls : List ImportDecl)
    (h : (transformImportDeclaration config node st).1 = some decls) :
    ∀ d ∈ decls, d.typeOnly = false ∨
      (d.source = node.source ∧ d.typeOnly = node.typeOnly ∧
        isDefaultOnly d = true) := by
  intro d hd
  simp only [transformImportDeclaration] at h
  split at h
  · exact absurd h (by simp)
  · split at h
    · exact absurd h (by simp)
    · split at h
      · exact absurd h (by simp)
      · split at h
        · exact absurd h (by simp)
        · injection h with h
          subst h
          rcases foldl_rewriteNamedStep_mem config node.source.value
            (getNamedSpecifiers node) _ d hd with hdflt | ⟨i, lc, s', rfl⟩
          · revert hdflt
            split
            · split
              · rename_i d0 hfind
                intro hdflt
                rw [List.mem_singleton.mp hdflt]
                have hpred := List.find?_some hfind
                refine Or.inr ⟨rfl, rfl, ?_⟩
                cases d0 with
                | namedSpec a b c => simp at hpred
                | defaultSpec lcl => rfl
                | namespaceSpec lcl => simp at hpred
              · intro hdflt; cases hdflt
            · intro hdflt; cases hdflt
          · exact Or.inl rfl

/-- A type-only named barrel import: `import type { X } from 'pkg'`. -/
def nodeC4 : ImportDecl := ⟨[.namedSpec "X" none false], ⟨"pkg", "'pkg'"⟩, true⟩

/-- Counterexample to C4: the type-only statement `import type { X } from
'pkg'` is rewritten, but the emitted direct import has `typeOnly = false` — a
value import — so type-only-ness is not preserved. -/
theorem barrel_C4_counterexample :
    nodeC4.typeOnly = true ∧
    (transformImportDeclaration ⟨[("X", "/r/node_modules/pkg/lib/X.js")], ["pkg"]⟩
      nodeC4 (initTState "c")).1 = some [createNamedImport "X" "X" "pkg/X"] ∧
    (createNamedImport "X" "X" "pkg/X").typeOnly = false := by
  decide

/-- A mixed type-only import with a default and a named binding. -/
def nodeC4w : ImportDecl :=
  ⟨[.defaultSpec "D", .namedSpec "X" none false], ⟨"pkg", "'pkg'"⟩, true⟩

/-- Witness for the amended C4 at a concrete emitted declaration. -/
theorem barrel_C4_rewritten_imports_value_only_witness :
    (createNamedImport "X" "X" "pkg/X").typeOnly = false ∨
      ((createNamedImport "X" "X" "pkg/X").source = nodeC4w.source ∧
        (createNamedImport "X" "X" "pkg/X").typeOnly = nodeC4w.typeOnly ∧
        isDefaultOnly (createNamedImport "X" "X" "pkg/X") = true) :=
  barrel_C4_rewritten_imports_value_only
    ⟨[("X", "/r/node_modules/pkg/lib/X.js")], ["pkg"]⟩ nodeC4w (initTState "c")
    [⟨[.defaultSpec "D"], ⟨"pkg", "'pkg'"⟩, true⟩, createNamedImport "X" "X" "pkg/X"]
    (by decide) (createNamedImport "X" "X" "pkg/X") (by decide)

/-! ## C9: the path canonicalizer refines the spec pipeline (§4.4) -/

lemma joinTail_eq (pn : String) (X : List String) :
    (if X = [] then pn else pn ++ "/" ++ String.intercalate "/" X) =
      (match X with
       | [] => pn
       | segs => pn ++ "/" ++ String.intercalate "/" segs) := by
  cases X with
  | nil => rfl
  | cons a t => rfl

lemma collapse_eq (l : List String) :
    (if 2 ≤ l.length ∧ l.getLastD "" = l.dropLast.getLastD "" then l.dropLast else l) =
      (match l.reverse with
       | a :: b :: revInit => if a = b then (b :: revInit).reverse else l
       | _ => l) := by
  cases hr : l.reverse with
  | nil =>
    have hl : l = [] := by simpa using congrArg List.reverse hr
    subst hl
    rfl
  | cons a t =>
    cases t with
    | nil =>
      have hl : l = [a] := by simpa using congrArg List.reverse hr
      subst hl
      rfl
    | cons b r =>
      have hl : l = (r.reverse ++ [b]) ++ [a] := by
        have := congrArg List.reverse hr
        simpa [List.append_assoc] using this
      subst hl
      dsimp only
      have e1 : ((r.reverse ++ [b]) ++ [a]).getLastD "" = a := List.getLastD_concat _ _ _
      have e2 : ((r.reverse ++ [b]) ++ [a]).dropLast = r.reverse ++ [b] :=
        List.dropLast_concat
      have e3 : (r.reverse ++ [b]).getLastD "" = b := List.getLastD_concat _ _ _
      have e4 : 2 ≤ ((r.reverse ++ [b]) ++ [a]).length := by simp
      by_cases hab : a = b
      · rw [if_pos ⟨e4, by rw [e1, e2, e3, hab]⟩, e2, if_pos hab]
        simp
      · rw [if_neg fun hc => hab (by rw [e1, e2, e3] at hc; exact hc.2), if_neg hab]

lemma extIndex_eq (s1 : List String) :
    (if s1 = [] then s1
     else
       let lastSegment := s1.getLastD ""
       let nameWithoutExt := stripExtension lastSegment
       let p1 := s1.dropLast ++ [nameWithoutExt]
       let p2 := if nameWithoutExt = "index" then p1.dropLast else p1
       if 2 ≤ p2.length ∧ p2.getLastD "" = p2.dropLast.getLastD "" then p2.dropLast else p2) =
    (let s2 :=
       match s1.reverse with
       | [] => []
       | lastSeg :: revInit => (stripExtension lastSeg :: revInit).reverse
     let s3 :=
       match s2.reverse with
       | lastSeg :: revInit => if lastSeg = "index" then revInit.reverse else s2
       | [] => s2
     match s3.reverse with
     | a :: b :: revInit => if a = b then (b :: revInit).reverse else s3
     | _ => s3) := by
  induction s1 using List.reverseRecOn with
  | nil => rfl
  | append_singleton init last ih =>
    have hne : init ++ [last] ≠ [] := by simp
    rw [if_neg hne]
    dsimp only
    have hrev : (init ++ [last]).reverse = last :: init.reverse := by simp
    simp only [hrev, List.getLastD_concat, List.dropLast_concat, List.reverse_reverse]
    by_cases he : stripExtension last = "index"
    · rw [if_pos he, if_pos he]
      exact collapse_eq init
    · rw [if_neg he, if_neg he]
      have hs2r : (stripExtension last :: init.reverse).reverse =
          init ++ [stripExtension last] := by simp
      rw [hs2r]
      exact collapse_eq (init ++ [stripExtension last])

lemma tailJoin_eq (pn : String) (s1 : List String) :
    (let sub2 :=
       if s1 = [] then s1
       else
         let lastSegment := s1.getLastD ""
         let nameWithoutExt := stripExtension lastSegment
         let p1 := s1.dropLast ++ [nameWithoutExt]
         let p2 := if nameWithoutExt = "index" then p1.dropLast else p1
         if 2 ≤ p2.length ∧ p2.getLastD "" = p2.dropLast.getLastD "" then p2.dropLast else p2
     if sub2 = [] then pn else pn ++ "/" ++ String.intercalate "/" sub2) =
    (match
        (let s2 :=
           match s1.reverse with
           | [] => []
           | lastSeg :: revInit => (stripExtension lastSeg :: revInit).reverse
         let s3 :=
           match s2.reverse with
           | lastSeg :: revInit => if lastSeg = "index" then revInit.reverse else s2
           | [] => s2
         match s3.reverse with
         | a :: b :: revInit => if a = b then (b :: revInit).reverse else s3
         | _ => s3) with
     | [] => pn
     | segs => pn ++ "/" ++ String.intercalate "/" segs) := by
  rw [extIndex_eq s1]
  exact joinTail_eq pn _

lemma canonicalTail_eq (pn : String) (sub0 : List String) :
    (let sub1 :=
       match sub0 with
       | seg0 :: restSegs => if seg0 ≠ "" ∧ seg0 ∈ distFolders then restSegs else sub0
       | [] => sub0
     let sub2 :=
       if sub1 = [] then sub1
       else
         let lastSegment := sub1.getLastD ""
         let nameWithoutExt := stripExtension lastSegment
         let p1 := sub1.dropLast ++ [nameWithoutExt]
         let p2 := if nameWithoutExt = "index" then p1.dropLast else p1
         if 2 ≤ p2.length ∧ p2.getLastD "" = p2.dropLast.getLastD "" then p2.dropLast else p2
     if sub2 = [] then pn else pn ++ "/" ++ String.intercalate "/" sub2) =
    (match specCanonicalSub sub0 with
     | [] => pn
     | segs => pn ++ "/" ++ String.intercalate "/" segs) := by
  cases sub0 with
  | nil => rfl
  | cons d rest =>
    simp only [specCanonicalSub]
    by_cases hd : d ∈ distFolders
    · have hdne : d ≠ "" := by
        intro he
        subst he
        exact absurd hd (by decide)
      rw [if_pos (⟨hdne, hd⟩ : d ≠ "" ∧ d ∈ distFolders), if_pos hd]
      exact tailJoin_eq pn rest
    · rw [if_neg (show ¬ (d ≠ "" ∧ d ∈ distFolders) from fun hc => hd hc.2), if_neg hd]
      exact tailJoin_eq pn (d :: rest)

lemma canonicalAfter_eq (A : String) :
    (let segments := strSplitOn A "/"
     let split :=
       match segments with
       | [] => ("", [])
       | first :: rest =>
         if first ≠ "" ∧ strStarts first "@" then
           (first ++ "/" ++ rest.headD "", rest.drop 1)
         else (first, rest)
     let packageName := split.1
     let sub0 := split.2
     let sub1 :=
       match sub0 with
       | seg0 :: restSegs => if seg0 ≠ "" ∧ seg0 ∈ distFolders then restSegs else sub0
       | [] => sub0
     let sub2 :=
       if sub1 = [] then sub1
       else
         let lastSegment := sub1.getLastD ""
         let nameWithoutExt := stripExtension lastSegment
         let p1 := sub1.dropLast ++ [nameWithoutExt]
         let p2 := if nameWithoutExt = "index" then p1.dropLast else p1
         if 2 ≤ p2.length ∧ p2.getLastD "" = p2.dropLast.getLastD "" then p2.dropLast else p2
     if sub2 = [] then packageName
     else packageName ++ "/" ++ String.intercalate "/" sub2) = specCanonicalize A := by
  simp only [specCanonicalize, specPackageSplit]
  cases strSplitOn A "/" with
  | nil => rfl
  | cons first rest =>
    dsimp only
    by_cases hat : strStarts first "@" = true
    · have hne : first ≠ "" := by
        intro he
        subst he
        exact absurd hat (by decide)
      rw [if_pos (⟨hne, hat⟩ : first ≠ "" ∧ strStarts first "@" = true), if_pos hat]
      exact canonicalTail_eq _ _
    · rw [if_neg (show ¬ (first ≠ "" ∧ strStarts first "@" = true) from fun hc => hat hc.2),
        if_neg hat]
      exact canonicalTail_eq _ _

/-- C9: for every absolute defining-file path under a `node_modules` dependency
root (the split on `"node_modules/"` yields at least two parts), the path
canonicalizer `absoluteToPackagePath` returns exactly the package-relative
specifier of the spec pipeline: package name (one segment, two when scoped with
`@`), then the sub-path with one leading denylisted distribution directory
stripped, the trailing source extension stripped, a trailing `index` segment
dropped and a trailing `Dir/Dir` duplicate pair collapsed, joined back onto the
package name. -/
theorem barrel_C9_canonicalizer_refines_spec (p : String)
    (h : 2 ≤ (strSplitOn (strSlashes p) "node_modules/").length) :
    absoluteToPackagePath p =
      specCanonicalize ((strSplitOn (strSlashes p) "node_modules/").getLastD "") := by
  have hnot : ¬ ((strSplitOn (strSlashes p) "node_modules/").length ≤ 1) := by omega
  simp only [absoluteToPackagePath]
  rw [if_neg hnot]
  exact canonicalAfter_eq ((strSplitOn (strSlashes p) "node_modules/").getLastD "")

theorem barrel_C9_canonicalizer_refines_spec_witness :
    (2 ≤ (strSplitOn (strSlashes "/proj/node_modules/@mui/material/esm/Button/Button.js")
        "node_modules/").length ∧
      absoluteToPackagePath "/proj/node_modules/@mui/material/esm/Button/Button.js" =
        specCanonicalize
          ((strSplitOn (strSlashes "/proj/node_modules/@mui/material/esm/Button/Button.js")
              "node_modules/").getLastD "")) ∧
    absoluteToPackagePath "/proj/node_modules/@mui/material/esm/Button/Button.js" =
      "@mui/material/Button" :=
  ⟨⟨by decide,
      barrel_C9_canonicalizer_refines_spec
        "/proj/node_modules/@mui/material/esm/Button/Button.js" (by decide)⟩,
    by decide⟩


end Barrel
